import Mathlib

/-!
The task node of task-mule (`task.js`).

A shallow embedding of `task.js`: the task node, its dependency resolver and
the two memoised, sequential, fail-fast traversals `validate` and `invoke`.

* Task objects live in a heap indexed by natural numbers (object identity);
  a dependency list holds such references.
* A promise chain is run sequentially, so a traversal is a function from the
  mutable state (memo object, log, observed events) to a settled status and
  the state reached.  The recursion of a traversal into the dependency lists
  is bounded by a recursion depth (`fuel`).
* A task module is an external collaborator: what its `validate` or `invoke`
  does is given by what the call returns (`Returned`).
-/

namespace TaskMule

/-! ## Values, configuration, modules -/

/-- The value carried by a `throw` or by a rejected promise. -/
abbrev Err := String

/-- JavaScript values as far as the code tells them apart: it only tests
truthiness (`config.get(..)`, the value a module function returns). None of
them has a `then` method. -/
inductive Value where
  | undefined
  | null
  | bool (b : Bool)
  | num (n : Int)
  | str (s : String)
  | obj (tag : Nat)
  deriving DecidableEq, Repr

/-- JavaScript truthiness. -/
def Value.truthy : Value → Bool
  | .undefined => false
  | .null => false
  | .bool b => b
  | .num n => n != 0
  | .str s => s != ""
  | .obj _ => true

/-- The config object: `config.get(key)`. -/
structure Config where
  get : String → Value

/-- What a call of `module.validate(config)` or `module.invoke(config)` does:
it throws, returns a value that is no promise, or returns a promise that is
later resolved with a value or rejected with an error. -/
inductive Returned where
  | throws (e : Err)
  | value (v : Value)
  | promise (settled : Except Err Value)

/-- The `dependsOn` property of a module: a plain list of task names or a
function of the config (which may throw). -/
inductive DependsOn where
  | list (names : List String)
  | compute (f : Config → Except Err (List String))

/-- The module object of a task; each capability may be absent. -/
structure Module where
  dependsOn : Option DependsOn := none
  validate : Option (Config → Returned) := none
  invoke : Option (Config → Returned) := none

/-! ## Task identity -/

/-- Function `stripExt` (task.js 11-20). -/
def stripExt (fileName : String) : String :=
  if ['.', 'j', 's'].isSuffixOf fileName.data then
    String.mk (fileName.data.take (fileName.data.length - 3))
  else
    fileName

/-- The constructor arguments a task keeps for its lifetime: its file name,
the parent task it was created under and the module loaded for it. -/
inductive Task where
  | root (fileName : String) (module : Option Module)
  | child (parentTask : Task) (fileName : String) (module : Option Module)

/-- Field `self.fileName`. -/
def Task.fileName : Task → String
  | .root f _ => f
  | .child _ f _ => f

/-- Field `self.module`. -/
def Task.module : Task → Option Module
  | .root _ m => m
  | .child _ _ m => m

/-- Field `self.taskName`, set by the constructor (task.js 43) and returned by
`self.name()` (task.js 62-64). -/
def Task.name (t : Task) : String := stripExt t.fileName

/-- Method `self.fullName` (task.js 69-76). -/
def Task.fullName : Task → String
  | .root f _ => stripExt f
  | .child p f _ => p.fullName ++ "/" ++ stripExt f

/-- Method `self.getDepTaskNames` (task.js 89-111). -/
def Task.getDepTaskNames (t : Task) (config : Config) : Except Err (List String) :=
  match t.module with
  | none => .ok []
  | some m =>
    match m.dependsOn with
    | none => .ok []
    | some (.compute f) => f config
    | some (.list names) => .ok names

/-! ## The heap, the log and the state of a run -/

/-- The four channels of the log object. -/
inductive Channel where
  | info
  | warn
  | error
  | task
  deriving DecidableEq, Repr

/-- One call of `log.info`, `log.warn`, `log.error` or `log.task`. -/
structure LogMsg where
  channel : Channel
  text : String
  deriving DecidableEq, Repr

/-- The two traversals. -/
inductive Phase where
  | validate
  | invoke
  deriving DecidableEq, Repr

/-- Observation points of a run (not data of the program): the own step of a
task begins when the task has passed the memo test and is marked, and it
finishes when that step completes without a failure. -/
inductive Event where
  | began (p : Phase) (self : Nat)
  | finished (p : Phase) (self : Nat)
  deriving DecidableEq, Repr

/-- The task objects: `task i` is the object with identity `i`,
`dependencies i` its field `self.dependencies` (`none` while the field is
undefined), `children i` its field `self.children` and `childrenMap i` its
field `self.childrenMap`.  `seconds i` is the text
`(stopWatch.read() * 0.001).toFixed(2)` yields when task `i` completes. -/
structure World where
  task : Nat → Task
  dependencies : Nat → Option (List Nat)
  children : Nat → List Nat := fun _ => []
  seconds : Nat → String := fun _ => "0.00"
  childrenMap : Nat → String → Option Nat := fun _ _ => none

/-- Expression `E.from(self.dependencies)`: an undefined field enumerates as
empty. -/
def World.deps (w : World) (self : Nat) : List Nat :=
  (w.dependencies self).getD []

/-- Expression `self.fullName()` of the task object `self`. -/
def World.fullName (w : World) (self : Nat) : String :=
  (w.task self).fullName

/-- The state a traversal works on: the memo object (its keys with a truthy
value; the code only ever sets `true`), the messages logged so far and the
events observed so far. -/
structure Run where
  memo : List String := []
  log : List LogMsg := []
  trace : List Event := []
  deriving DecidableEq, Repr

/-- How the promise returned by a traversal settles; `outOfFuel` stands for a
recursion that exceeded the depth bound. -/
inductive Status where
  | ok
  | failed (e : Err)
  | outOfFuel
  deriving DecidableEq, Repr

/-- Assignment `tasksValidated[taskName] = true`. -/
def Run.mark (r : Run) (taskName : String) : Run :=
  { r with memo := taskName :: r.memo }

/-- A call on the log object. -/
def Run.say (r : Run) (channel : Channel) (text : String) : Run :=
  { r with log := r.log ++ [⟨channel, text⟩] }

/-- Record an observation. -/
def Run.emit (r : Run) (e : Event) : Run :=
  { r with trace := r.trace ++ [e] }

/-- The error of calling `resultingPromise.then` on a value without `then`. -/
def thenTypeError : Err := "TypeError: resultingPromise.then is not a function"

/-! ## The traversals -/

/-- Method `promise.then(callback)` on a settled chain: the callback runs only
when the promise is resolved; a rejection is passed on. -/
def andThen (p : Status × Run) (callback : Run → Status × Run) : Status × Run :=
  match p.1 with
  | .ok => callback p.2
  | _ => p

/-- The fold `E.from(self.dependencies).aggregate(Promise.resolve(), ...)`
(task.js 148-157, 208-217). -/
def aggregate (visit : Nat → Run → Status × Run) (dependencies : List Nat) (r : Run) :
    Status × Run :=
  dependencies.foldl (fun prevPromise depTask => andThen prevPromise (visit depTask)) (.ok, r)

/-- The callback of `validate` that follows the dependencies (task.js 158-192). -/
def validateStep (w : World) (config : Config) (self : Nat) (r : Run) : Status × Run :=
  let taskName := w.fullName self
  if taskName ∈ r.memo then
    (.ok, r)
  else
    let r := (r.mark taskName).emit (.began .validate self)
    match (w.task self).module with
    | none => (.ok, r.emit (.finished .validate self))
    | some module =>
      match module.validate with
      | none => (.ok, r.emit (.finished .validate self))
      | some validate =>
        match validate config with
        | .throws e => (.failed e, r.say .error ("Exception while validating task: " ++ taskName))
        | .value resultingPromise =>
          if resultingPromise.truthy then
            (.failed thenTypeError,
              r.say .error ("Exception while validating task: " ++ taskName))
          else
            (.ok, r.emit (.finished .validate self))
        | .promise (.ok _) => (.ok, r.emit (.finished .validate self))
        | .promise (.error e) => (.failed e, r)

/-- The completion message of `invoke` (task.js 248-260 and 265-277, the same
text twice). -/
def completed (w : World) (config : Config) (self : Nat) (r : Run) : Run :=
  let taskName := w.fullName self
  let ouputMessage :=
    if (config.get "timed").truthy then taskName ++ ": " ++ w.seconds self ++ " seconds"
    else taskName
  if (config.get "verbose").truthy then r.say .info ("Completed " ++ ouputMessage)
  else r.say .task ouputMessage

/-- The callback of `invoke` that follows the dependencies (task.js 218-284). -/
def invokeStep (w : World) (config : Config) (self : Nat) (r : Run) : Status × Run :=
  let taskName := w.fullName self
  if taskName ∈ r.memo then
    (.ok, r)
  else
    let r := (r.mark taskName).emit (.began .invoke self)
    let r := if (config.get "verbose").truthy then r.say .info ("Running " ++ taskName) else r
    match (w.task self).module with
    | none =>
      (.ok, (r.say .warn ("Task not implemented: " ++ taskName)).emit (.finished .invoke self))
    | some module =>
      match module.invoke with
      | none => (.ok, r.emit (.finished .invoke self))
      | some invoke =>
        match invoke config with
        | .throws e => (.failed e, r.say .error ("Exception while invoking task: " ++ taskName))
        | .value resultingPromise =>
          if resultingPromise.truthy then
            (.failed thenTypeError, r.say .error ("Exception while invoking task: " ++ taskName))
          else
            (.ok, (completed w config self r).emit (.finished .invoke self))
        | .promise (.ok _) => (.ok, (completed w config self r).emit (.finished .invoke self))
        | .promise (.error e) => (.failed e, r)

/-- A traversal: the dependencies in list order, then the step of the task
itself; `fuel` bounds the depth of the recursion into dependency lists. -/
def traverse (w : World) (step : Nat → Run → Status × Run) : Nat → Nat → Run → Status × Run
  | 0, _, r => (.outOfFuel, r)
  | fuel + 1, self, r => andThen (aggregate (traverse w step fuel) (w.deps self) r) (step self)

/-- Method `self.validate(config, tasksValidated)` (task.js 138-193). -/
def validate (w : World) (config : Config) (fuel : Nat) (self : Nat) (r : Run) : Status × Run :=
  traverse w (validateStep w config) fuel self r

/-- Method `self.invoke(config, tasksInvoked)` (task.js 198-285). -/
def invoke (w : World) (config : Config) (fuel : Nat) (self : Nat) (r : Run) : Status × Run :=
  traverse w (invokeStep w config) fuel self r

/-- The tasks whose own step began, in the order of the trace. -/
def begun (p : Phase) (trace : List Event) : List Nat :=
  trace.filterMap fun e =>
    match e with
    | .began q i => if q = p then some i else none
    | .finished _ _ => none

/-! ## Graph notions and the reference traversal -/

/-- Task `b` is reachable from task `a` through dependency lists (in zero or
more steps). -/
def Reach (w : World) (a b : Nat) : Prop :=
  Relation.ReflTransGen (fun x y => y ∈ w.deps x) a b

/-- The dependency graph is acyclic: `rank` decreases along every dependency
edge. -/
def Ranked (w : World) (rank : Nat → Nat) : Prop :=
  ∀ i d, d ∈ w.deps i → rank d < rank i

/-- Concatenation of the listings of a dependency list, when all exist. -/
def listAll (f : Nat → Option (List Nat)) : List Nat → Option (List Nat)
  | [] => some []
  | d :: ds =>
    match f d, listAll f ds with
    | some l, some ls => some (l ++ ls)
    | _, _ => none

/-- The depth-first, left-to-right post-order listing of the dependency lists
below a task, with repeats; `none` when the depth bound is exceeded. -/
def postOrder (w : World) : Nat → Nat → Option (List Nat)
  | 0, _ => none
  | fuel + 1, self => (listAll (postOrder w fuel) (w.deps self)).map (· ++ [self])

/-- The memo entries written by the own steps of `l`, the last one first. -/
def marks (w : World) (l : List Nat) : List String :=
  (l.map w.fullName).reverse

/-- The events of own steps that ran one after another to completion. -/
def pairs (p : Phase) (l : List Nat) : List Event :=
  l.flatMap fun i => [.began p i, .finished p i]

/-- What the two step functions have in common: a marked task is skipped
without any effect; otherwise the task is marked, its step begins, it either
finishes or fails, and the log only grows. -/
structure StepSpec (w : World) (p : Phase) (step : Nat → Run → Status × Run) : Prop where
  skip : ∀ i r, w.fullName i ∈ r.memo → step i r = (.ok, r)
  run : ∀ i r, w.fullName i ∉ r.memo →
    (step i r).2.memo = w.fullName i :: r.memo ∧
    (((step i r).1 = .ok ∧ (step i r).2.trace = r.trace ++ [.began p i, .finished p i]) ∨
     ((∃ e, (step i r).1 = .failed e) ∧ (step i r).2.trace = r.trace ++ [.began p i])) ∧
    ∃ l, (step i r).2.log = r.log ++ l

/-- In the list `P` of own steps, run from the memo `memo`, every task comes
after the marking of the names of all its dependencies. -/
def DepsFirst (w : World) (memo : List String) (P : List Nat) : Prop :=
  ∀ l₁ j l₂, P = l₁ ++ j :: l₂ → ∀ d ∈ w.deps j, w.fullName d ∈ marks w l₁ ++ memo

/-- Event `e` is the begin or the end of the own step, in phase `p`, of a
task reachable from `start` whose full name `memo` does not mark. -/
def EventOf (w : World) (p : Phase) (memo : List String) (start : Nat) (e : Event) : Prop :=
  ∃ j, Reach w start j ∧ w.fullName j ∉ memo ∧ (e = .began p j ∨ e = .finished p j)

/-- A call of a traversal: the depth bound left, the task and the state at
the time of the call. -/
structure Call where
  fuel : Nat
  self : Nat
  state : Run

/-- The call `c` makes the call `c'`: the task of `c'` is listed in the
dependencies of the task of `c`, and the dependencies listed before it have
been traversed with success, leaving the state of `c'`. -/
def Calls (w : World) (step : Nat → Run → Status × Run) (c c' : Call) : Prop :=
  c.fuel = c'.fuel + 1 ∧
    ∃ pre post, w.deps c.self = pre ++ c'.self :: post ∧
      aggregate (traverse w step c'.fuel) pre c.state = (.ok, c'.state)

/-- The marks and events a run from `r` leaves in `res`: the own steps `P`
that began are all marked; when the run fails all but the last of them
finished, and otherwise all of them did. -/
def Marked (w : World) (p : Phase) (r : Run) (res : Status × Run) : Prop :=
  ∃ P, res.2.memo = marks w P ++ r.memo ∧
    ((∃ e P' x, res.1 = .failed e ∧ P = P' ++ [x] ∧
        res.2.trace = r.trace ++ pairs p P' ++ [.began p x]) ∨
     ((res.1 = .ok ∨ res.1 = .outOfFuel) ∧ res.2.trace = r.trace ++ pairs p P))

/-! ## Construction, resolution and rendering -/

/-- The `Task` constructor (task.js 25-57) creating the object `self` from
the constructor data `t` (file name, parent task and loaded module): it sets
`children` and `childrenMap` and leaves the field `dependencies` undefined. -/
def World.construct (w : World) (self : Nat) (t : Task) : World :=
  { w with
    task := Function.update w.task self t
    dependencies := Function.update w.dependencies self none
    children := Function.update w.children self []
    childrenMap := Function.update w.childrenMap self (fun _ => none) }

/-- Method `self.addChild(childTask)` (task.js 81-84). -/
def World.addChild (w : World) (self childTask : Nat) : World :=
  { w with
    children := Function.update w.children self (w.children self ++ [childTask])
    childrenMap := Function.update w.childrenMap self
      (Function.update (w.childrenMap self) (w.task childTask).name (some childTask)) }

/-- The chain `E.from(names).select(taskRunner.getTask).toArray()`: the names
are looked up in list order and the first lookup that throws ends the chain. -/
def lookupAll (getTask : String → Except Err Nat) : List String → Except Err (List Nat)
  | [] => .ok []
  | taskName :: rest =>
    match getTask taskName with
    | .error e => .error e
    | .ok depTask =>
      match lookupAll getTask rest with
      | .error e => .error e
      | .ok depTasks => .ok (depTask :: depTasks)

/-- Method `self.resolveDependencies(config)` (task.js 116-133) on the task
object `self`, with `getTask` the lookup of the task runner: the status of the
call, the heap and the log after it. -/
def resolveDependencies (w : World) (getTask : String → Except Err Nat) (config : Config)
    (self : Nat) (log : List LogMsg) : Status × World × List LogMsg :=
  match (w.task self).getDepTaskNames config with
  | .error e =>
    (.failed e, w,
      log ++ [⟨.error, "Exception while resolving dependencies for task: " ++ w.fullName self⟩])
  | .ok names =>
    match lookupAll getTask names with
    | .error e =>
      (.failed e, w,
        log ++ [⟨.error, "Exception while resolving dependencies for task: " ++ w.fullName self⟩])
    | .ok depTasks =>
      (.ok, { w with dependencies := Function.update w.dependencies self (some depTasks) }, log)

/-- The loop of `makeIndent` (task.js 289-291). -/
def makeIndentLoop : Nat → String → String
  | 0, output => output
  | indentLevel + 1, output => makeIndentLoop indentLevel (output ++ "#")

/-- Function `makeIndent` (task.js 287-294). -/
def makeIndent (indentLevel : Nat) : String :=
  makeIndentLoop indentLevel ""

/-- How a call of `genTree` ends: it returns a text, throws, or exceeds the
depth bound of the recursion. -/
inductive Rendered where
  | text (output : String)
  | threw (e : Err)
  | outOfFuel
  deriving DecidableEq, Repr

/-- The error of calling `forEach` on an undefined `self.dependencies`. -/
def forEachTypeError : Err := "TypeError: Cannot read property 'forEach' of undefined"

/-- One turn of the `forEach` of `genTree` (task.js 301-303): the rendering of
a dependency is appended to the output so far. -/
def appendTree (render : Nat → Rendered) (acc : Rendered) (depTask : Nat) : Rendered :=
  match acc with
  | .text output =>
    match render depTask with
    | .text sub => .text (output ++ sub)
    | other => other
  | other => other

/-- Method `self.genTree(indentLevel)` (task.js 296-306); `fuel` bounds the
depth of the recursion into dependency lists. -/
def genTree (w : World) : Nat → Nat → Nat → Rendered
  | 0, _, _ => .outOfFuel
  | fuel + 1, self, indentLevel =>
    let output := makeIndent indentLevel ++ w.fullName self ++ "\n"
    match w.dependencies self with
    | none => .threw forEachTypeError
    | some dependencies =>
      dependencies.foldl (appendTree fun depTask => genTree w fuel depTask (indentLevel + 1))
        (.text output)

/-- The lines of a rendering, each with its indent level and its task: the
line of the task, then the lines of each dependency one level deeper. -/
def treeLines (w : World) : Nat → Nat → Nat → List (Nat × Nat)
  | 0, _, _ => []
  | fuel + 1, self, indentLevel =>
    (indentLevel, self) ::
      (w.deps self).flatMap fun depTask => treeLines w fuel depTask (indentLevel + 1)

/-- The texts of a list, one after the other. -/
def concatAll : List String → String
  | [] => ""
  | first :: rest => first ++ concatAll rest

/-- The text of a line: the indent, the full name and a newline. -/
def lineText (w : World) (line : Nat × Nat) : String :=
  makeIndent line.1 ++ w.fullName line.2 ++ "\n"

/-- The text of a list of lines. -/
def renderLines (w : World) (lines : List (Nat × Nat)) : String :=
  concatAll (lines.map (lineText w))

/-- The number of dependency paths from `self` to `target`, a path going
through an entry of a dependency list at each step: the empty path when
`self` is the target, and the paths from each entry of the dependency list. -/
def pathCount (w : World) (target : Nat) : Nat → Nat → Nat
  | 0, _ => 0
  | fuel + 1, self =>
    (if self = target then 1 else 0) + ((w.deps self).map (pathCount w target fuel)).sum

/-- Every task reachable from `root` has a dependency list:
`resolveDependencies` has been called on it. -/
def Resolved (w : World) (root : Nat) : Prop :=
  ∀ i, Reach w root i → ∃ dependencies, w.dependencies i = some dependencies

/-- The task names on the way from the root of the hierarchy to the task. -/
def Task.names : Task → List String
  | .root f _ => [stripExt f]
  | .child p f _ => p.names ++ [stripExt f]

/-- The tasks of the hierarchy under `root`: the root, and the children added
to a task of the hierarchy. -/
inductive Member (w : World) (root : Nat) : Nat → Prop where
  | root : Member w root root
  | child (p c : Nat) : Member w root p → c ∈ w.children p → Member w root c

/-- The hierarchy is built with the constructor and `addChild`: the root was
created without a parent, and each child was created with the task it is added
to as its parent, so that its chain of names is the chain of that task
followed by its own name. -/
def Coherent (w : World) (root : Nat) : Prop :=
  (w.task root).names = [(w.task root).name] ∧
    ∀ p c, Member w root p → c ∈ w.children p →
      (w.task c).names = (w.task p).names ++ [(w.task c).name]

/-- Sibling tasks have distinct file names. -/
def SiblingFiles (w : World) (root : Nat) : Prop :=
  ∀ p c c', Member w root p → c ∈ w.children p → c' ∈ w.children p →
    (w.task c).fileName = (w.task c').fileName → c = c'

/-- Sibling tasks have distinct task names (file names without ".js"). -/
def SiblingNames (w : World) (root : Nat) : Prop :=
  ∀ p c c', Member w root p → c ∈ w.children p → c' ∈ w.children p →
    (w.task c).name = (w.task c').name → c = c'

/-- No task name of the hierarchy contains the separator "/". -/
def NoSlash (w : World) (root : Nat) : Prop :=
  ∀ i, Member w root i → '/' ∉ (w.task i).name.data

/-! ## Example worlds -/

/-- A config with no key set. -/
def cfg0 : Config := ⟨fun _ => .undefined⟩

/-- A config with `verbose` set. -/
def cfgV : Config := ⟨fun k => if k = "verbose" then .bool true else .undefined⟩

/-- A module whose `validate` returns nothing and whose `invoke` returns a
promise that resolves. -/
def okModule : Module :=
  { validate := some fun _ => .value .undefined
    invoke := some fun _ => .promise (.ok .undefined) }

/-- A module whose `validate` and `invoke` throw. -/
def throwModule (e : Err) : Module :=
  { validate := some fun _ => .throws e
    invoke := some fun _ => .throws e }

/-- A module whose `validate` and `invoke` return a promise that rejects. -/
def rejectModule (e : Err) : Module :=
  { validate := some fun _ => .promise (.error e)
    invoke := some fun _ => .promise (.error e) }

/-- A module whose `validate` and `invoke` return the plain value `v`. -/
def plainModule (v : Value) : Module :=
  { validate := some fun _ => .value v
    invoke := some fun _ => .value v }

/-- A module whose `validate` throws and whose `invoke` succeeds. -/
def badValidate (e : Err) : Module :=
  { validate := some fun _ => .throws e
    invoke := some fun _ => .promise (.ok .undefined) }

/-- A module whose dependencies are computed from the config: "b" and "c"
when `verbose` is set, "a" otherwise. -/
def computedModule : Module :=
  { dependsOn := some (.compute fun config =>
      if (config.get "verbose").truthy then .ok ["b", "c"] else .ok ["a"]) }

/-- The diamond: D (3) depends on B (1) and C (2), which both depend on A (0);
`a` and `b` are the modules of A and B. -/
def diamondWith (a b : Option Module) : World where
  task := fun i =>
    match i with
    | 0 => .root "A.js" a
    | 1 => .root "B.js" b
    | 2 => .root "C.js" (some okModule)
    | 3 => .root "D.js" (some okModule)
    | _ => .root "other" none
  dependencies := fun i =>
    match i with
    | 0 => some []
    | 1 => some [0]
    | 2 => some [0]
    | 3 => some [1, 2]
    | _ => none

/-- A task N (2) that lists X (0) and then Y (1), where X itself depends on Y. -/
def nested : World where
  task := fun i =>
    match i with
    | 0 => .root "x.js" (some okModule)
    | 1 => .root "y.js" (some okModule)
    | 2 => .root "n.js" (some okModule)
    | _ => .root "other" none
  dependencies := fun i =>
    match i with
    | 0 => some [1]
    | 1 => some []
    | 2 => some [0, 1]
    | _ => none

/-- The diamond with modules that succeed. -/
def diamond : World := diamondWith (some okModule) (some okModule)

/-- A task runner that knows the tasks "a", "b" and "c". -/
def getTaskAbc (taskName : String) : Except Err Nat :=
  if taskName = "a" then .ok 0
  else if taskName = "b" then .ok 1
  else if taskName = "c" then .ok 2
  else .error ("Task not found: " ++ taskName)

/-- A heap with the tasks a (0), b (1), c (2), none resolved yet, and the task
t (5) whose dependencies are computed from the config. -/
def resolver : World where
  task := fun i =>
    match i with
    | 0 => .root "a.js" (some okModule)
    | 1 => .root "b.js" (some okModule)
    | 2 => .root "c.js" (some okModule)
    | 5 => .root "t.js" (some computedModule)
    | 6 => .root "u.js" (some { dependsOn := some (.list ["a", "missing", "b"]) })
    | _ => .root "other" none
  dependencies := fun _ => none

/-- Two tasks that depend on each other: A (0) on B (1) and B on A. -/
def cycle : World where
  task := fun i =>
    match i with
    | 0 => .root "A.js" (some okModule)
    | 1 => .root "B.js" (some okModule)
    | _ => .root "other" none
  dependencies := fun i =>
    match i with
    | 0 => some [1]
    | 1 => some [0]
    | _ => none

/-- A hierarchy: the directory p (0) with the children a (1), a directory, and
a.js (2), a file. -/
def clash : World where
  task := fun i =>
    match i with
    | 0 => .root "p" none
    | 1 => .child (.root "p" none) "a" none
    | 2 => .child (.root "p" none) "a.js" (some okModule)
    | _ => .root "other" none
  dependencies := fun _ => some []
  children := fun i =>
    match i with
    | 0 => [1, 2]
    | _ => []

/-- A hierarchy with a file name that holds the separator: a (0) with the
children "b/c" (1) and b (2), and c (3) the child of b. -/
def clashSlash : World where
  task := fun i =>
    match i with
    | 0 => .root "a" none
    | 1 => .child (.root "a" none) "b/c" none
    | 2 => .child (.root "a" none) "b" none
    | 3 => .child (.child (.root "a" none) "b" none) "c" none
    | _ => .root "other" none
  dependencies := fun _ => some []
  children := fun i =>
    match i with
    | 0 => [1, 2]
    | 2 => [3]
    | _ => []

/-- A hierarchy whose sibling tasks have distinct names: p (0) with the
children a.js (1) and b (2). -/
def family : World where
  task := fun i =>
    match i with
    | 0 => .root "p" none
    | 1 => .child (.root "p" none) "a.js" (some okModule)
    | 2 => .child (.root "p" none) "b" none
    | _ => .root "other" none
  dependencies := fun _ => some []
  children := fun i =>
    match i with
    | 0 => [1, 2]
    | _ => []

/-! ## The fold and the steps -/

theorem andThen_ok (r : Run) (callback : Run → Status × Run) :
    andThen (.ok, r) callback = callback r := rfl

theorem andThen_of_ne_ok (res : Status × Run) (callback : Run → Status × Run)
    (h : res.1 ≠ .ok) : andThen res callback = res := by
  obtain ⟨s, r⟩ := res
  cases s <;> simp_all [andThen]

theorem foldl_andThen_of_ne_ok (visit : Nat → Run → Status × Run) (ds : List Nat)
    (res : Status × Run) (h : res.1 ≠ .ok) :
    ds.foldl (fun prevPromise depTask => andThen prevPromise (visit depTask)) res = res := by
  induction ds with
  | nil => rfl
  | cons d ds ih => simp only [List.foldl_cons, andThen_of_ne_ok _ _ h, ih]

theorem aggregate_nil (visit : Nat → Run → Status × Run) (r : Run) :
    aggregate visit [] r = (.ok, r) := rfl

theorem aggregate_cons_ok (visit : Nat → Run → Status × Run) (d : Nat) (ds : List Nat)
    (r r₁ : Run) (h : visit d r = (.ok, r₁)) :
    aggregate visit (d :: ds) r = aggregate visit ds r₁ := by
  simp only [aggregate, List.foldl_cons, andThen_ok, h]

theorem aggregate_cons_stop (visit : Nat → Run → Status × Run) (d : Nat) (ds : List Nat)
    (r : Run) (h : (visit d r).1 ≠ .ok) :
    aggregate visit (d :: ds) r = visit d r := by
  simp only [aggregate, List.foldl_cons, andThen_ok]
  exact foldl_andThen_of_ne_ok visit ds _ h

theorem aggregate_append_ok (visit : Nat → Run → Status × Run) (ds es : List Nat)
    (r r₁ : Run) (h : aggregate visit ds r = (.ok, r₁)) :
    aggregate visit (ds ++ es) r = aggregate visit es r₁ := by
  simp only [aggregate, List.foldl_append] at h ⊢
  rw [h]

theorem aggregate_append_stop (visit : Nat → Run → Status × Run) (ds es : List Nat)
    (r : Run) (h : (aggregate visit ds r).1 ≠ .ok) :
    aggregate visit (ds ++ es) r = aggregate visit ds r := by
  simp only [aggregate, List.foldl_append] at h ⊢
  exact foldl_andThen_of_ne_ok visit es _ h

/-- Induction over a traversal: a relation between the task, the state before
and the result that holds when the depth bound is hit, is kept by the fold
over a dependency list and by the step of the task, holds of every run. -/
theorem traverse_induction (w : World) (step : Nat → Run → Status × Run)
    (T : Nat → Nat → Run → Status × Run → Prop)
    (A : Nat → List Nat → Run → Status × Run → Prop)
    (hfuel : ∀ i r, T 0 i r (.outOfFuel, r))
    (hnil : ∀ fuel r, A fuel [] r (.ok, r))
    (hcons : ∀ fuel d ds r r₁ res, T fuel d r (.ok, r₁) → A fuel ds r₁ res →
      A fuel (d :: ds) r res)
    (hstop : ∀ fuel d ds r res, res.1 ≠ .ok → T fuel d r res → A fuel (d :: ds) r res)
    (hstep : ∀ fuel i r r₁, A fuel (w.deps i) r (.ok, r₁) → T (fuel + 1) i r (step i r₁))
    (hfail : ∀ fuel i r res, res.1 ≠ .ok → A fuel (w.deps i) r res → T (fuel + 1) i r res) :
    (∀ fuel i r, T fuel i r (traverse w step fuel i r)) ∧
    (∀ fuel ds r, A fuel ds r (aggregate (traverse w step fuel) ds r)) := by
  have hA : ∀ fuel, (∀ i r, T fuel i r (traverse w step fuel i r)) →
      ∀ ds r, A fuel ds r (aggregate (traverse w step fuel) ds r) := by
    intro fuel ih ds
    induction ds with
    | nil => intro r; exact hnil fuel r
    | cons d ds ihd =>
      intro r
      rcases hres : traverse w step fuel d r with ⟨s, r₁⟩
      by_cases hs : s = .ok
      · subst hs
        rw [aggregate_cons_ok _ _ _ _ _ hres]
        exact hcons fuel d ds r r₁ _ (hres ▸ ih d r) (ihd r₁)
      · have hne : (traverse w step fuel d r).1 ≠ .ok := by rw [hres]; exact hs
        rw [aggregate_cons_stop _ _ _ _ hne]
        exact hstop fuel d ds r _ hne (ih d r)
  have hT : ∀ fuel i r, T fuel i r (traverse w step fuel i r) := by
    intro fuel
    induction fuel with
    | zero => intro i r; exact hfuel i r
    | succ fuel ih =>
      intro i r
      show T (fuel + 1) i r (andThen (aggregate (traverse w step fuel) (w.deps i) r) (step i))
      rcases hres : aggregate (traverse w step fuel) (w.deps i) r with ⟨s, r₁⟩
      by_cases hs : s = .ok
      · subst hs
        rw [andThen_ok]
        exact hstep fuel i r r₁ (hres ▸ hA fuel ih (w.deps i) r)
      · rw [andThen_of_ne_ok _ _ (by simpa using hs)]
        exact hfail fuel i r _ (by simpa using hs) (hres ▸ hA fuel ih (w.deps i) r)
  exact ⟨hT, fun fuel => hA fuel (hT fuel)⟩

theorem validateStep_spec (w : World) (config : Config) :
    StepSpec w .validate (validateStep w config) := by
  constructor
  · intro i r h
    simp [validateStep, h]
  · intro i r h
    simp only [validateStep, h, if_false]
    repeat' split
    all_goals simp [Run.mark, Run.emit, Run.say]

theorem invokeStep_spec (w : World) (config : Config) :
    StepSpec w .invoke (invokeStep w config) := by
  constructor
  · intro i r h
    simp [invokeStep, h]
  · intro i r h
    simp only [invokeStep, h, if_false, completed]
    repeat' split
    all_goals simp [Run.mark, Run.emit, Run.say]

/-! ## Lists: scan, marks, event pairs -/

theorem marks_append (w : World) (a b : List Nat) :
    marks w (a ++ b) = marks w b ++ marks w a := by
  simp [marks]

theorem marks_singleton (w : World) (i : Nat) : marks w [i] = [w.fullName i] := rfl

theorem mem_marks (w : World) (l : List Nat) (k : String) :
    k ∈ marks w l ↔ ∃ x ∈ l, w.fullName x = k := by
  simp [marks]

theorem pairs_nil (p : Phase) : pairs p [] = [] := rfl

theorem pairs_append (p : Phase) (a b : List Nat) :
    pairs p (a ++ b) = pairs p a ++ pairs p b := by
  simp [pairs]

theorem pairs_singleton (p : Phase) (i : Nat) :
    pairs p [i] = [.began p i, .finished p i] := by
  simp [pairs]

theorem begun_append (p : Phase) (a b : List Event) :
    begun p (a ++ b) = begun p a ++ begun p b := by
  simp [begun]

theorem begun_pairs_of_ne (p q : Phase) (h : q ≠ p) (l : List Nat) :
    begun p (pairs q l) = [] := by
  induction l with
  | nil => rfl
  | cons x xs ih =>
    have hx : pairs q (x :: xs) = [.began q x, .finished q x] ++ pairs q xs := by
      simp [pairs]
    rw [hx, begun_append, ih]
    simp [begun, h]

theorem listAll_cons_some (f : Nat → Option (List Nat)) (d : Nat) (ds : List Nat)
    (Ls : List Nat) :
    listAll f (d :: ds) = some Ls ↔
      ∃ l ls, f d = some l ∧ listAll f ds = some ls ∧ Ls = l ++ ls := by
  simp only [listAll]
  cases hf : f d with
  | none => simp
  | some l =>
    cases hl : listAll f ds with
    | none => simp
    | some ls =>
      simp only [Option.some.injEq]
      constructor
      · intro h; exact ⟨l, ls, rfl, rfl, h.symm⟩
      · rintro ⟨l', ls', h1, h2, h3⟩; subst h1 h2; exact h3.symm

theorem postOrder_succ_some (w : World) (fuel i : Nat) (L : List Nat) :
    postOrder w (fuel + 1) i = some L ↔
      ∃ Ls, listAll (postOrder w fuel) (w.deps i) = some Ls ∧ L = Ls ++ [i] := by
  simp only [postOrder, Option.map_eq_some']
  constructor
  · rintro ⟨Ls, h1, h2⟩; exact ⟨Ls, h1, h2.symm⟩
  · rintro ⟨Ls, h1, h2⟩; exact ⟨Ls, h1, h2.symm⟩

theorem mem_listAll (f : Nat → Option (List Nat)) (ds : List Nat) :
    ∀ Ls, listAll f ds = some Ls →
      ∀ j, j ∈ Ls ↔ ∃ d ∈ ds, ∃ l, f d = some l ∧ j ∈ l := by
  induction ds with
  | nil =>
    intro Ls h j
    simp only [listAll, Option.some.injEq] at h
    subst h
    simp
  | cons d ds ih =>
    intro Ls h j
    obtain ⟨l, ls, h1, h2, h3⟩ := (listAll_cons_some f d ds Ls).1 h
    subst h3
    rw [List.mem_append, ih ls h2 j]
    constructor
    · rintro (hj | ⟨d', hd', l', hl', hj⟩)
      · exact ⟨d, List.mem_cons_self _ _, l, h1, hj⟩
      · exact ⟨d', List.mem_cons_of_mem _ hd', l', hl', hj⟩
    · rintro ⟨d', hd', l', hl', hj⟩
      rcases List.mem_cons.1 hd' with hd' | hd'
      · subst hd'
        rw [h1] at hl'
        cases hl'
        exact Or.inl hj
      · exact Or.inr ⟨d', hd', l', hl', hj⟩

/-- The listing below a task holds exactly the tasks reachable from it. -/
theorem mem_postOrder (w : World) :
    ∀ fuel i L, postOrder w fuel i = some L → ∀ j, j ∈ L ↔ Reach w i j := by
  intro fuel
  induction fuel with
  | zero => intro i L h; simp [postOrder] at h
  | succ fuel ih =>
    intro i L h j
    obtain ⟨Ls, h1, h2⟩ := (postOrder_succ_some w fuel i L).1 h
    subst h2
    rw [List.mem_append, mem_listAll _ _ Ls h1 j]
    constructor
    · rintro (⟨d, hd, l, hl, hj⟩ | hj)
      · exact Relation.ReflTransGen.head hd ((ih d l hl j).1 hj)
      · simp only [List.mem_singleton] at hj
        subst hj
        exact Relation.ReflTransGen.refl
    · intro hreach
      rcases Relation.ReflTransGen.cases_head hreach with heq | ⟨c, hc, hcj⟩
      · subst heq; exact Or.inr (List.mem_singleton_self _)
      · obtain ⟨l, ls, hl⟩ : ∃ l, postOrder w fuel c = some l ∧ True := by
          have : ∀ ds Ls, listAll (postOrder w fuel) ds = some Ls → c ∈ ds →
              ∃ l, postOrder w fuel c = some l := by
            intro ds
            induction ds with
            | nil => intro _ _ hc; simp at hc
            | cons d ds ihd =>
              intro Ls' hLs' hc'
              obtain ⟨l, ls, q1, q2, _⟩ := (listAll_cons_some _ d ds Ls').1 hLs'
              rcases List.mem_cons.1 hc' with hc' | hc'
              · subst hc'; exact ⟨l, q1⟩
              · exact ihd ls q2 hc'
          obtain ⟨l, hl⟩ := this _ _ h1 hc
          exact ⟨l, hl, trivial⟩
        exact Or.inl ⟨c, hc, l, ls, (ih c l ls j).2 hcj⟩

/-! ## A run follows the listing -/

theorem depsFirst_prefix (w : World) (memo : List String) (P Q : List Nat)
    (h : DepsFirst w memo (P ++ Q)) : DepsFirst w memo P := by
  intro l₁ j l₂ hP d hd
  exact h l₁ j (l₂ ++ Q) (by rw [hP]; simp) d hd

theorem step_marks (w : World) (p : Phase) (step : Nat → Run → Status × Run)
    (hs : StepSpec w p step) (i : Nat) (r : Run) : w.fullName i ∈ (step i r).2.memo := by
  by_cases hi : w.fullName i ∈ r.memo
  · rw [hs.skip i r hi]; exact hi
  · rw [(hs.run i r hi).1]; exact List.mem_cons_self _ _

theorem ranked_of_bound (w : World) (n : Nat) (hout : ∀ i, n ≤ i → w.deps i = [])
    (hin : ∀ i < n, ∀ d ∈ w.deps i, d < i) : Ranked w id := by
  intro i d hd
  by_cases hi : i < n
  · exact hin i hi d hd
  · rw [hout i (by omega)] at hd
    simp at hd

theorem diamondWith_deps (a b : Option Module) (i : Nat) :
    (diamondWith a b).deps i = diamond.deps i := rfl

theorem diamondWith_ranked (a b : Option Module) : Ranked (diamondWith a b) id := by
  have h : Ranked diamond id := by
    apply ranked_of_bound _ 4
    · intro i hi
      match i, hi with
      | n + 4, _ => rfl
    · decide
  intro i d hd
  exact h i d hd

theorem step_events (w : World) (p : Phase) (step : Nat → Run → Status × Run)
    (hs : StepSpec w p step) (i : Nat) (r : Run) :
    ∃ E, (step i r).2.trace = r.trace ++ E ∧ (∀ k ∈ r.memo, k ∈ (step i r).2.memo) ∧
      ∀ e ∈ E, EventOf w p r.memo i e := by
  by_cases hi : w.fullName i ∈ r.memo
  · rw [hs.skip i r hi]
    exact ⟨[], by simp, fun k hk => hk, by simp⟩
  · obtain ⟨hm, ht, _⟩ := hs.run i r hi
    rcases ht with ⟨_, b⟩ | ⟨_, b⟩
    · refine ⟨_, b, fun k hk => by rw [hm]; exact List.mem_cons_of_mem _ hk, ?_⟩
      intro e he
      refine ⟨i, Relation.ReflTransGen.refl, hi, ?_⟩
      simpa using he
    · refine ⟨_, b, fun k hk => by rw [hm]; exact List.mem_cons_of_mem _ hk, ?_⟩
      intro e he
      refine ⟨i, Relation.ReflTransGen.refl, hi, ?_⟩
      simp only [List.mem_singleton] at he
      exact Or.inl he

theorem eventOf_mono (w : World) (p : Phase) (memo memo' : List String) (a b : Nat)
    (e : Event) (hab : Reach w a b) (hm : ∀ k ∈ memo, k ∈ memo')
    (h : EventOf w p memo' b e) : EventOf w p memo a e := by
  obtain ⟨j, hj, hn, he⟩ := h
  exact ⟨j, hab.trans hj, fun c => hn (hm _ c), he⟩

/-- The events of a run: it only appends events, of tasks reachable from where
it started and not marked at that point; it never unmarks; and when it
succeeds the task is marked. -/
theorem traverse_events (w : World) (p : Phase) (step : Nat → Run → Status × Run)
    (hs : StepSpec w p step) :
    (∀ fuel i r, ∃ E, (traverse w step fuel i r).2.trace = r.trace ++ E ∧
      (∀ k ∈ r.memo, k ∈ (traverse w step fuel i r).2.memo) ∧
      ((traverse w step fuel i r).1 = .ok →
        w.fullName i ∈ (traverse w step fuel i r).2.memo) ∧
      ∀ e ∈ E, EventOf w p r.memo i e) ∧
    (∀ fuel ds r, ∃ E, (aggregate (traverse w step fuel) ds r).2.trace = r.trace ++ E ∧
      (∀ k ∈ r.memo, k ∈ (aggregate (traverse w step fuel) ds r).2.memo) ∧
      ∀ e ∈ E, ∃ d ∈ ds, EventOf w p r.memo d e) := by
  apply traverse_induction w step
    (fun _ i r res => ∃ E, res.2.trace = r.trace ++ E ∧ (∀ k ∈ r.memo, k ∈ res.2.memo) ∧
      (res.1 = .ok → w.fullName i ∈ res.2.memo) ∧ ∀ e ∈ E, EventOf w p r.memo i e)
    (fun _ ds r res => ∃ E, res.2.trace = r.trace ++ E ∧ (∀ k ∈ r.memo, k ∈ res.2.memo) ∧
      ∀ e ∈ E, ∃ d ∈ ds, EventOf w p r.memo d e)
  · intro i r
    exact ⟨[], by simp, fun k hk => hk, by simp, by simp⟩
  · intro fuel r
    exact ⟨[], by simp, fun k hk => hk, by simp⟩
  · rintro fuel d ds r r₁ res ⟨E₁, t₁, m₁, _, e₁⟩ ⟨E₂, t₂, m₂, e₂⟩
    refine ⟨E₁ ++ E₂, by rw [t₂, t₁, List.append_assoc], fun k hk => m₂ k (m₁ k hk), ?_⟩
    intro e he
    rcases List.mem_append.1 he with he | he
    · exact ⟨d, List.mem_cons_self _ _, e₁ e he⟩
    · obtain ⟨d', hd', h'⟩ := e₂ e he
      exact ⟨d', List.mem_cons_of_mem _ hd',
        eventOf_mono w p _ _ d' d' e Relation.ReflTransGen.refl m₁ h'⟩
  · rintro fuel d ds r res _ ⟨E₁, t₁, m₁, _, e₁⟩
    exact ⟨E₁, t₁, m₁, fun e he => ⟨d, List.mem_cons_self _ _, e₁ e he⟩⟩
  · rintro fuel i r r₁ ⟨E₁, t₁, m₁, e₁⟩
    obtain ⟨E₂, t₂, m₂, e₂⟩ := step_events w p step hs i r₁
    simp only at t₁ m₁
    refine ⟨E₁ ++ E₂, by rw [t₂, t₁, List.append_assoc], fun k hk => m₂ k (m₁ k hk),
      fun _ => step_marks w p step hs i r₁, ?_⟩
    intro e he
    rcases List.mem_append.1 he with he | he
    · obtain ⟨d, hd, h'⟩ := e₁ e he
      exact eventOf_mono w p _ _ i d e (Relation.ReflTransGen.single hd) (fun k hk => hk) h'
    · exact eventOf_mono w p _ _ i i e Relation.ReflTransGen.refl m₁ (e₂ e he)
  · rintro fuel i r res hne ⟨E₁, t₁, m₁, e₁⟩
    refine ⟨E₁, t₁, m₁, fun hok => absurd hok hne, ?_⟩
    intro e he
    obtain ⟨d, hd, h'⟩ := e₁ e he
    exact eventOf_mono w p _ _ i d e (Relation.ReflTransGen.single hd) (fun k hk => hk) h'

/-- The two dependencies `[x, y]` of a task, where `y` is not reachable from
`x`: all events of the traversal of `x` come first and none of them is the
begin of the own step of `y`; what follows holds no end of the own step of
`x`, and is empty unless the traversal of `x` succeeded. -/
theorem siblings_in_order (w : World) (p : Phase) (step : Nat → Run → Status × Run)
    (hs : StepSpec w p step) (fuel n x y : Nat) (r : Run) (hdeps : w.deps n = [x, y])
    (hxy : ¬ Reach w x y) :
    ∃ E₁ E₂, (traverse w step fuel x r).2.trace = r.trace ++ E₁ ∧
      (traverse w step (fuel + 1) n r).2.trace = r.trace ++ E₁ ++ E₂ ∧
      Event.began p y ∉ E₁ ∧ Event.finished p x ∉ E₂ ∧
      ((traverse w step fuel x r).1 ≠ .ok → E₂ = []) := by
  obtain ⟨hT, hA⟩ := traverse_events w p step hs
  obtain ⟨E₁, t₁, m₁, k₁, e₁⟩ := hT fuel x r
  have hy : Event.began p y ∉ E₁ := by
    intro hmem
    obtain ⟨j, hj, _, he⟩ := e₁ _ hmem
    rcases he with he | he
    · cases he; exact hxy hj
    · cases he
  have hrun : traverse w step (fuel + 1) n r =
      andThen (aggregate (traverse w step fuel) [x, y] r) (step n) := by
    simp only [traverse, hdeps]
  rcases hres : traverse w step fuel x r with ⟨s, r₁⟩
  rw [hres] at t₁ m₁ k₁
  simp only at t₁ m₁ k₁
  by_cases hsok : s = .ok
  · subst hsok
    have hx : w.fullName x ∈ r₁.memo := k₁ rfl
    obtain ⟨E₂, t₂, m₂, e₂⟩ := hA fuel [y] r₁
    rw [aggregate_cons_ok _ _ _ _ _ hres] at hrun
    have hno : ∀ (memo : List String) (start : Nat) (E : List Event),
        w.fullName x ∈ memo → (∀ e ∈ E, EventOf w p memo start e) →
        Event.finished p x ∉ E := by
      intro memo start E hmemo hE hmem
      obtain ⟨j, _, hn, he⟩ := hE _ hmem
      rcases he with he | he
      · cases he
      · cases he; exact hn hmemo
    rcases hagg : aggregate (traverse w step fuel) [y] r₁ with ⟨s₂, r₂⟩
    rw [hagg] at t₂ m₂ hrun
    simp only at t₂ m₂
    have h₂ : Event.finished p x ∉ E₂ := by
      intro hmem
      obtain ⟨d, _, h'⟩ := e₂ _ hmem
      exact hno r₁.memo d [Event.finished p x] hx (by simpa using h') (by simp)
    by_cases hs₂ : s₂ = .ok
    · subst hs₂
      rw [andThen_ok] at hrun
      obtain ⟨E₃, t₃, _, e₃⟩ := step_events w p step hs n r₂
      refine ⟨E₁, E₂ ++ E₃, t₁, ?_, hy, ?_, fun h => absurd rfl h⟩
      · rw [hrun, t₃, t₂, t₁]; simp only [List.append_assoc]
      · intro hmem
        rcases List.mem_append.1 hmem with hmem | hmem
        · exact h₂ hmem
        · exact hno r₂.memo n E₃ (m₂ _ hx) e₃ hmem
    · rw [andThen_of_ne_ok _ _ (by simpa using hs₂)] at hrun
      refine ⟨E₁, E₂, t₁, ?_, hy, h₂, fun h => absurd rfl h⟩
      rw [hrun, t₂, t₁]
  · have hne : (traverse w step fuel x r).1 ≠ .ok := by rw [hres]; exact hsok
    rw [aggregate_cons_stop _ _ _ _ hne, andThen_of_ne_ok _ _ hne] at hrun
    refine ⟨E₁, [], t₁, ?_, hy, by simp, fun _ => rfl⟩
    rw [hrun, hres, t₁]; simp

theorem deps_of_dependencies (w : World) (n : Nat) (l : List Nat)
    (h : w.dependencies n = some l) : w.deps n = l := by
  simp [World.deps, h]

theorem none_after (a b : Event) (E₁ E₂ t₁ t₂ : List Event) (h₁ : b ∉ E₁) (h₂ : a ∉ E₂)
    (h : E₁ ++ E₂ = t₁ ++ b :: t₂) : a ∉ t₂ := by
  rcases List.append_eq_append_iff.1 h with ⟨c, hc, hb⟩ | ⟨c, hc, hb⟩
  · exact fun hmem => h₂ (by rw [hb]; simp [hmem])
  · cases c with
    | nil =>
      simp only [List.nil_append] at hb
      exact fun hmem => h₂ (by rw [← hb]; simp [hmem])
    | cons c cs =>
      simp only [List.cons_append, List.cons.injEq] at hb
      exact absurd (by rw [hc, hb.1]; simp) h₁

/-- C3, as amended.  For a task whose resolved dependency list is `[x, y]`,
where `y` is not reachable from `x` through dependency lists, in every run of
`validate` or `invoke` on that task (any graph, config, initial state and
depth bound) the events of the run split in two: first the whole traversal of
`x`, in which the own step of `y` never begins, then the rest, in which the own
step of `x` never completes and which is empty unless the traversal of `x`
succeeded.  So no completion of the own step of `x` is observed after a begin
of the own step of `y`. -/
theorem listed_order_preserved (w : World) (config : Config) (fuel n x y : Nat) (r : Run)
    (hdeps : w.dependencies n = some [x, y]) (hxy : ¬ Reach w x y) :
    (∃ E₁ E₂, (validate w config fuel x r).2.trace = r.trace ++ E₁ ∧
      (validate w config (fuel + 1) n r).2.trace = r.trace ++ E₁ ++ E₂ ∧
      Event.began .validate y ∉ E₁ ∧ Event.finished .validate x ∉ E₂ ∧
      ((validate w config fuel x r).1 ≠ .ok → E₂ = []) ∧
      ∀ t₁ t₂, E₁ ++ E₂ = t₁ ++ Event.began .validate y :: t₂ →
        Event.finished .validate x ∉ t₂) ∧
    (∃ E₁ E₂, (invoke w config fuel x r).2.trace = r.trace ++ E₁ ∧
      (invoke w config (fuel + 1) n r).2.trace = r.trace ++ E₁ ++ E₂ ∧
      Event.began .invoke y ∉ E₁ ∧ Event.finished .invoke x ∉ E₂ ∧
      ((invoke w config fuel x r).1 ≠ .ok → E₂ = []) ∧
      ∀ t₁ t₂, E₁ ++ E₂ = t₁ ++ Event.began .invoke y :: t₂ →
        Event.finished .invoke x ∉ t₂) := by
  obtain ⟨E₁, E₂, a, b, c, d, e⟩ := siblings_in_order w .validate (validateStep w config)
    (validateStep_spec w config) fuel n x y r (deps_of_dependencies w n _ hdeps) hxy
  obtain ⟨F₁, F₂, a', b', c', d', e'⟩ := siblings_in_order w .invoke (invokeStep w config)
    (invokeStep_spec w config) fuel n x y r (deps_of_dependencies w n _ hdeps) hxy
  exact ⟨⟨E₁, E₂, a, b, c, d, e, fun t₁ t₂ h => none_after _ _ E₁ E₂ t₁ t₂ c d h⟩,
    ⟨F₁, F₂, a', b', c', d', e', fun t₁ t₂ h => none_after _ _ F₁ F₂ t₁ t₂ c' d' h⟩⟩

/-- C3, witness: D of the diamond lists B and then C, and C is not reachable
from B. -/
theorem listed_order_preserved_witness :
    diamond.dependencies 3 = some [1, 2] ∧ ¬ Reach diamond 1 2 ∧
      ∃ E₁ E₂, (invoke diamond cfg0 3 1 {}).2.trace = ([] : List Event) ++ E₁ ∧
        (invoke diamond cfg0 4 3 {}).2.trace = [] ++ E₁ ++ E₂ ∧
        Event.began .invoke 2 ∉ E₁ ∧ Event.finished .invoke 1 ∉ E₂ ∧
        ((invoke diamond cfg0 3 1 {}).1 ≠ .ok → E₂ = []) ∧
        ∀ t₁ t₂, E₁ ++ E₂ = t₁ ++ Event.began .invoke 2 :: t₂ →
          Event.finished .invoke 1 ∉ t₂ :=
  have h : ¬ Reach diamond 1 2 := fun c =>
    absurd ((mem_postOrder diamond 4 1 [0, 1] rfl 2).2 c) (by decide)
  ⟨rfl, h, (listed_order_preserved diamond cfg0 3 3 1 2 {} rfl h).2⟩

/-- C3, counterexample: N lists `[x, y]` and `x` itself depends on `y`.  In
`validate` and in `invoke` on N the own step of `y` begins, and ends, before
the own step of `x` begins: the completion of `x` is the fourth event, the
begin of `y` the first. -/
theorem listed_order_preserved_counterexample :
    nested.dependencies 2 = some [0, 1] ∧
    validate nested cfg0 3 2 {} =
      (.ok, { memo := ["n", "x", "y"], log := [],
              trace := [.began .validate 1, .finished .validate 1, .began .validate 0,
                .finished .validate 0, .began .validate 2, .finished .validate 2] }) ∧
    (invoke nested cfg0 3 2 {}).2.trace =
      [.began .invoke 1, .finished .invoke 1, .began .invoke 0, .finished .invoke 0,
        .began .invoke 2, .finished .invoke 2] ∧
    ¬ (List.indexOf (Event.finished .validate 0) (validate nested cfg0 3 2 {}).2.trace <
        List.indexOf (Event.began .validate 1) (validate nested cfg0 3 2 {}).2.trace) ∧
    ¬ (List.indexOf (Event.finished .invoke 0) (invoke nested cfg0 3 2 {}).2.trace <
        List.indexOf (Event.began .invoke 1) (invoke nested cfg0 3 2 {}).2.trace) :=
  ⟨rfl, by decide, by decide, by decide, by decide⟩

/-! ## C4: fail-fast propagation -/

theorem failure_through_call (w : World) (step : Nat → Run → Status × Run) (c c' : Call)
    (res : Status × Run) (hne : res.1 ≠ .ok) (hc : Calls w step c c')
    (h : traverse w step c'.fuel c'.self c'.state = res) :
    traverse w step c.fuel c.self c.state = res := by
  obtain ⟨hf, pre, post, hdeps, hpre⟩ := hc
  have hne' : (traverse w step c'.fuel c'.self c'.state).1 ≠ .ok := by rw [h]; exact hne
  have hagg : aggregate (traverse w step c'.fuel) (w.deps c.self) c.state = res := by
    rw [hdeps, aggregate_append_ok _ _ _ _ _ hpre, aggregate_cons_stop _ _ _ _ hne', h]
  rw [hf]
  show andThen (aggregate (traverse w step c'.fuel) (w.deps c.self) c.state) (step c.self) = res
  rw [hagg, andThen_of_ne_ok _ _ hne]

theorem failure_through_calls (w : World) (step : Nat → Run → Status × Run) (c c' : Call)
    (res : Status × Run) (hne : res.1 ≠ .ok) (hc : Relation.ReflTransGen (Calls w step) c c')
    (h : traverse w step c'.fuel c'.self c'.state = res) :
    traverse w step c.fuel c.self c.state = res := by
  induction hc using Relation.ReflTransGen.head_induction_on with
  | refl => exact h
  | head h' _ ih => exact failure_through_call w step _ _ res hne h' ih

/-- C4.  When the traversal of a task `x` that a run has reached (through
calls from the root, each made after the dependencies listed before have
succeeded) fails with error `e` in state `r'`, then the traversal of the root
fails with the same error `e` and ends in that very state `r'`: nothing is
marked, logged or run after the failure, whatever is listed after `x` at any
level and whatever the own modules of the tasks above `x` are. -/
theorem fail_fast_propagation (w : World) (config : Config) (root x : Call) (e : Err)
    (r' : Run) :
    (Relation.ReflTransGen (Calls w (validateStep w config)) root x →
      validate w config x.fuel x.self x.state = (.failed e, r') →
      validate w config root.fuel root.self root.state = (.failed e, r')) ∧
    (Relation.ReflTransGen (Calls w (invokeStep w config)) root x →
      invoke w config x.fuel x.self x.state = (.failed e, r') →
      invoke w config root.fuel root.self root.state = (.failed e, r')) :=
  ⟨fun hc h => failure_through_calls w _ root x _ (by simp) hc h,
    fun hc h => failure_through_calls w _ root x _ (by simp) hc h⟩

/-- C4, witness: in the diamond whose task A throws "boom", `invoke` on D calls
B, which calls A; A fails, C (listed after B) is never traversed, and D
receives "boom". -/
theorem fail_fast_propagation_witness :
    invoke (diamondWith (some (throwModule "boom")) (some okModule)) cfg0 4 3 {} =
      (.failed "boom",
        { memo := ["A"], log := [⟨.error, "Exception while invoking task: A"⟩],
          trace := [.began .invoke 0] }) :=
  (fail_fast_propagation (diamondWith (some (throwModule "boom")) (some okModule)) cfg0
      ⟨4, 3, {}⟩ ⟨2, 0, {}⟩ "boom" _).2
    (Relation.ReflTransGen.head
      (show Calls _ _ ⟨4, 3, {}⟩ ⟨3, 1, {}⟩ from ⟨rfl, [], [2], rfl, rfl⟩)
      (Relation.ReflTransGen.single
        (show Calls _ _ ⟨3, 1, {}⟩ ⟨2, 0, {}⟩ from ⟨rfl, [], [], rfl, rfl⟩)))
    (by decide)

/-! ## C5: logging of a failure of the own step -/

/-- C5, the code at the failing input.  Task A, whose module returns a promise
that rejects with "no": `validate` and `invoke` fail with "no" and log nothing,
where the claim wants one error message naming A.  For comparison, when the
module throws "boom" the failure is logged once on the error channel. -/
theorem rejection_is_not_logged :
    validate (diamondWith (some (rejectModule "no")) none) cfg0 1 0 {} =
      (.failed "no", { memo := ["A"], log := [], trace := [.began .validate 0] }) ∧
    invoke (diamondWith (some (rejectModule "no")) none) cfg0 1 0 {} =
      (.failed "no", { memo := ["A"], log := [], trace := [.began .invoke 0] }) ∧
    validate (diamondWith (some (throwModule "boom")) none) cfg0 1 0 {} =
      (.failed "boom",
        { memo := ["A"], log := [⟨.error, "Exception while validating task: A"⟩],
          trace := [.began .validate 0] }) ∧
    invoke (diamondWith (some (throwModule "boom")) none) cfg0 1 0 {} =
      (.failed "boom",
        { memo := ["A"], log := [⟨.error, "Exception while invoking task: A"⟩],
          trace := [.began .invoke 0] }) :=
  ⟨by decide, by decide, by decide, by decide⟩

/-! ## C6: results that are no promise -/

/-- C6, as amended.  When the module's `validate` (respectively `invoke`)
returns normally with a falsy value, the own step of the task succeeds and
logs no error: `validate` logs nothing, `invoke` logs only its messages on
other channels. -/
theorem falsy_result_completes (w : World) (config : Config) (self : Nat) (r : Run)
    (m : Module) (f : Config → Returned) (v : Value)
    (hmod : (w.task self).module = some m) (hret : f config = .value v)
    (hfalsy : v.truthy = false) :
    (m.validate = some f →
      (validateStep w config self r).1 = .ok ∧ (validateStep w config self r).2.log = r.log) ∧
    (m.invoke = some f →
      (invokeStep w config self r).1 = .ok ∧
      ∃ l, (invokeStep w config self r).2.log = r.log ++ l ∧
        ∀ msg ∈ l, msg.channel ≠ .error) := by
  constructor
  · intro hf
    by_cases hi : w.fullName self ∈ r.memo
    · simp [validateStep, hi]
    · simp [validateStep, hi, hmod, hf, hret, hfalsy, Run.mark, Run.emit]
  · intro hf
    by_cases hi : w.fullName self ∈ r.memo
    · simp only [invokeStep, hi, if_true, true_and]
      exact ⟨[], by simp, by simp⟩
    · by_cases hv : (config.get "verbose").truthy = true <;>
      by_cases ht : (config.get "timed").truthy = true <;>
      simp [invokeStep, hi, hmod, hf, hret, hfalsy, completed, Run.mark, Run.emit, Run.say,
        hv, ht]

/-- C6, witness: a module that returns `0`. -/
theorem falsy_result_completes_witness :
    (validateStep (diamondWith (some (plainModule (.num 0))) none) cfgV 0 {}).1 = .ok ∧
    (validateStep (diamondWith (some (plainModule (.num 0))) none) cfgV 0 {}).2.log = [] ∧
    (invokeStep (diamondWith (some (plainModule (.num 0))) none) cfgV 0 {}).1 = .ok :=
  have h := falsy_result_completes (diamondWith (some (plainModule (.num 0))) none) cfgV 0 {}
    (plainModule (.num 0)) (fun _ => .value (.num 0)) (.num 0) rfl rfl rfl
  ⟨(h.1 rfl).1, (h.1 rfl).2, (h.2 rfl).1⟩

/-- C6, counterexample: a module that returns `true`, a value that is no
promise.  The own step calls `then` on it, which throws; the step fails and
logs an error, in `validate` and in `invoke`. -/
theorem falsy_result_completes_counterexample :
    validate (diamondWith (some (plainModule (.bool true))) none) cfg0 1 0 {} =
      (.failed thenTypeError,
        { memo := ["A"], log := [⟨.error, "Exception while validating task: A"⟩],
          trace := [.began .validate 0] }) ∧
    invoke (diamondWith (some (plainModule (.bool true))) none) cfg0 1 0 {} =
      (.failed thenTypeError,
        { memo := ["A"], log := [⟨.error, "Exception while invoking task: A"⟩],
          trace := [.began .invoke 0] }) :=
  ⟨by decide, by decide⟩

/-! ## C7: a task without a module -/

/-- C10.  `getDepTaskNames(config)` returns the empty list when the task has
no module or the module has no `dependsOn`; the list `dependsOn` itself when
it is a plain list; and `dependsOn(config)`, for the config of the call, when
it is a function. -/
theorem getDepTaskNames_cases (t : Task) (config : Config) :
    (t.module = none → t.getDepTaskNames config = .ok []) ∧
    (∀ m, t.module = some m → m.dependsOn = none → t.getDepTaskNames config = .ok []) ∧
    (∀ m names, t.module = some m → m.dependsOn = some (.list names) →
      t.getDepTaskNames config = .ok names) ∧
    (∀ m f, t.module = some m → m.dependsOn = some (.compute f) →
      t.getDepTaskNames config = f config) := by
  refine ⟨?_, ?_, ?_, ?_⟩
  · intro h; simp [Task.getDepTaskNames, h]
  · intro m h h'; simp [Task.getDepTaskNames, h, h']
  · intro m names h h'; simp [Task.getDepTaskNames, h, h']
  · intro m f h h'; simp [Task.getDepTaskNames, h, h']

/-- C10, witness: a computed `dependsOn` is evaluated with the config of each
call. -/
theorem getDepTaskNames_cases_witness :
    (Task.root "t.js" (some computedModule)).getDepTaskNames cfg0 = .ok ["a"] ∧
    (Task.root "t.js" (some computedModule)).getDepTaskNames cfgV = .ok ["b", "c"] ∧
    (Task.root "dir" none).getDepTaskNames cfg0 = .ok [] :=
  ⟨(getDepTaskNames_cases (.root "t.js" (some computedModule)) cfg0).2.2.2 computedModule _
      rfl rfl,
    (getDepTaskNames_cases (.root "t.js" (some computedModule)) cfgV).2.2.2 computedModule _
      rfl rfl,
    (getDepTaskNames_cases (.root "dir" none) cfg0).1 rfl⟩

/-! ## C11: resolving the dependencies -/

theorem lookupAll_forall₂ (getTask : String → Except Err Nat) :
    ∀ (names : List String) (depTasks : List Nat), lookupAll getTask names = .ok depTasks →
      List.Forall₂ (fun taskName depTask => getTask taskName = .ok depTask) names depTasks := by
  intro names
  induction names with
  | nil =>
    intro depTasks h
    simp only [lookupAll, Except.ok.injEq] at h
    subst h
    exact List.Forall₂.nil
  | cons n rest ih =>
    intro depTasks h
    simp only [lookupAll] at h
    cases hn : getTask n with
    | error e => rw [hn] at h; simp at h
    | ok d =>
      rw [hn] at h
      cases hr : lookupAll getTask rest with
      | error e => rw [hr] at h; simp at h
      | ok ds =>
        rw [hr] at h
        simp only [Except.ok.injEq] at h
        subst h
        exact List.Forall₂.cons hn (ih ds hr)

theorem resolveDependencies_task (w : World) (getTask : String → Except Err Nat)
    (config : Config) (self : Nat) (log : List LogMsg) :
    (resolveDependencies w getTask config self log).2.1.task = w.task := by
  simp only [resolveDependencies]
  split
  · rfl
  · split <;> rfl

/-- C11.  When the names of the dependencies are computed and all looked up
with success, `resolveDependencies(config)` succeeds and logs nothing; the
dependency list of the task is then the list of the tasks found, one for each
name, in the order of the names, whatever the list was before, and no other
task is touched.  So after a call with another config first, the list is the
one of the last call alone; and a traversal of the task afterwards folds over
exactly that list. -/
theorem resolveDependencies_success (w : World) (getTask : String → Except Err Nat)
    (config : Config) (self : Nat) (log : List LogMsg) (names : List String)
    (depTasks : List Nat) (hnames : (w.task self).getDepTaskNames config = .ok names)
    (hlookup : lookupAll getTask names = .ok depTasks) :
    (resolveDependencies w getTask config self log).1 = .ok ∧
    (resolveDependencies w getTask config self log).2.2 = log ∧
    (resolveDependencies w getTask config self log).2.1.dependencies self = some depTasks ∧
    List.Forall₂ (fun taskName depTask => getTask taskName = .ok depTask) names depTasks ∧
    depTasks.length = names.length ∧
    (∀ i, i ≠ self →
      (resolveDependencies w getTask config self log).2.1.dependencies i = w.dependencies i) ∧
    (∀ (getTask₁ : String → Except Err Nat) (config₁ : Config) (log₁ : List LogMsg),
      (resolveDependencies (resolveDependencies w getTask₁ config₁ self log₁).2.1 getTask config
        self log).2.1.dependencies self = some depTasks) ∧
    (∀ (config' : Config) (fuel : Nat) (r : Run),
      validate (resolveDependencies w getTask config self log).2.1 config' (fuel + 1) self r =
        andThen
          (aggregate (validate (resolveDependencies w getTask config self log).2.1 config' fuel)
            depTasks r)
          (validateStep (resolveDependencies w getTask config self log).2.1 config' self) ∧
      invoke (resolveDependencies w getTask config self log).2.1 config' (fuel + 1) self r =
        andThen
          (aggregate (invoke (resolveDependencies w getTask config self log).2.1 config' fuel)
            depTasks r)
          (invokeStep (resolveDependencies w getTask config self log).2.1 config' self)) := by
  have hres : ∀ (v : World) (l : List LogMsg), v.task = w.task →
      resolveDependencies v getTask config self l =
        (.ok, { v with dependencies := Function.update v.dependencies self (some depTasks) },
          l) := by
    intro v l hv
    simp only [resolveDependencies, hv, hnames, hlookup]
  have hf := lookupAll_forall₂ getTask names depTasks hlookup
  have hdeps : (resolveDependencies w getTask config self log).2.1.deps self = depTasks := by
    rw [hres w log rfl]
    simp [World.deps]
  refine ⟨?_, ?_, ?_, hf, hf.length_eq.symm, ?_, ?_, ?_⟩
  · rw [hres w log rfl]
  · rw [hres w log rfl]
  · rw [hres w log rfl]; simp
  · intro i hi
    rw [hres w log rfl]
    simp [Function.update, hi]
  · intro getTask₁ config₁ log₁
    rw [hres _ log (resolveDependencies_task w getTask₁ config₁ self log₁)]
    simp
  · intro config' fuel r
    constructor
    · show andThen (aggregate _ ((resolveDependencies w getTask config self log).2.1.deps self) r)
        _ = _
      rw [hdeps]; rfl
    · show andThen (aggregate _ ((resolveDependencies w getTask config self log).2.1.deps self) r)
        _ = _
      rw [hdeps]; rfl

/-- C11, witness: the task t resolved with `verbose` unset and then with
`verbose` set depends on b and c. -/
theorem resolveDependencies_success_witness :
    (resolveDependencies (resolveDependencies resolver getTaskAbc cfg0 5 []).2.1 getTaskAbc cfgV
      5 []).2.1.dependencies 5 = some [1, 2] ∧
    (resolveDependencies resolver getTaskAbc cfg0 5 []).2.1.dependencies 5 = some [0] :=
  ⟨(resolveDependencies_success resolver getTaskAbc cfgV 5 [] ["b", "c"] [1, 2] rfl
      rfl).2.2.2.2.2.2.1 getTaskAbc cfg0 [],
    by decide⟩

/-! ## C12: a failed resolution -/

theorem lookupAll_error (getTask : String → Except Err Nat) (e : Err) (n : String)
    (post : List String) (hn : getTask n = .error e) :
    ∀ (pre : List String) (found : List Nat), lookupAll getTask pre = .ok found →
      lookupAll getTask (pre ++ n :: post) = .error e := by
  intro pre
  induction pre with
  | nil => intro _ _; simp [lookupAll, hn]
  | cons a pre ih =>
    intro found h
    simp only [lookupAll] at h
    cases ha : getTask a with
    | error e' => rw [ha] at h; simp at h
    | ok d =>
      rw [ha] at h
      cases hr : lookupAll getTask pre with
      | error e' => rw [hr] at h; simp at h
      | ok ds =>
        have hrec : lookupAll getTask (pre ++ n :: post) = .error e := ih ds hr
        show lookupAll getTask (a :: (pre ++ n :: post)) = .error e
        simp only [lookupAll, ha, hrec]

/-- C12.  When the computation of the names throws `e`, or the lookup of a
name throws `e` after the names before it were found, `resolveDependencies`
fails with `e`, logs one error message that holds the full name of the task,
and leaves the heap, with the dependency list of the task, as it was. -/
theorem resolveDependencies_failure (w : World) (getTask : String → Except Err Nat)
    (config : Config) (self : Nat) (log : List LogMsg) (e : Err) :
    ((w.task self).getDepTaskNames config = .error e →
      resolveDependencies w getTask config self log =
        (.failed e, w,
          log ++
            [⟨.error, "Exception while resolving dependencies for task: " ++ w.fullName self⟩])) ∧
    (∀ (pre : List String) (n : String) (post : List String) (found : List Nat),
      (w.task self).getDepTaskNames config = .ok (pre ++ n :: post) →
      lookupAll getTask pre = .ok found → getTask n = .error e →
      resolveDependencies w getTask config self log =
        (.failed e, w,
          log ++
            [⟨.error, "Exception while resolving dependencies for task: " ++ w.fullName self⟩])) := by
  constructor
  · intro h
    simp only [resolveDependencies, h]
  · intro pre n post found h hpre hn
    simp only [resolveDependencies, h, lookupAll_error getTask e n post hn pre found hpre]

/-- C12, witness: the task u lists "a", "missing", "b"; the lookup of the
middle name fails. -/
theorem resolveDependencies_failure_witness :
    resolveDependencies resolver getTaskAbc cfg0 6 [] =
      (.failed "Task not found: missing", resolver,
        [⟨.error, "Exception while resolving dependencies for task: " ++ resolver.fullName 6⟩]) ∧
    resolver.fullName 6 = "u" ∧ resolver.dependencies 6 = none :=
  ⟨(resolveDependencies_failure resolver getTaskAbc cfg0 6 [] "Task not found: missing").2
      ["a"] "missing" ["b"] [0] rfl rfl rfl,
    by decide, rfl⟩

/-! ## C13: the rendering of the dependency tree -/

theorem makeIndentLoop_eq (indentLevel : Nat) :
    ∀ output : String,
      makeIndentLoop indentLevel output = output ++ String.mk (List.replicate indentLevel '#') := by
  induction indentLevel with
  | zero =>
    intro output
    apply String.ext
    simp [makeIndentLoop]
  | succ n ih =>
    intro output
    rw [makeIndentLoop, ih]
    apply String.ext
    simp [String.data_append, List.replicate_succ]

theorem makeIndent_eq (indentLevel : Nat) :
    makeIndent indentLevel = String.mk (List.replicate indentLevel '#') := by
  rw [makeIndent, makeIndentLoop_eq]
  exact String.empty_append _

theorem concatAll_append (a b : List String) :
    concatAll (a ++ b) = concatAll a ++ concatAll b := by
  induction a with
  | nil => simp [concatAll, String.empty_append]
  | cons x xs ih =>
    show x ++ concatAll (xs ++ b) = (x ++ concatAll xs) ++ concatAll b
    rw [ih, String.append_assoc]

theorem concatAll_flatMap (ds : List Nat) (f : Nat → List String) :
    concatAll (ds.flatMap f) = concatAll (ds.map fun d => concatAll (f d)) := by
  induction ds with
  | nil => rfl
  | cons d ds ih => simp only [List.flatMap_cons, List.map_cons, concatAll, concatAll_append, ih]

theorem foldl_appendTree (render : Nat → Rendered) (t : Nat → String) (ds : List Nat)
    (h : ∀ d ∈ ds, render d = .text (t d)) :
    ∀ output : String,
      ds.foldl (appendTree render) (.text output) = .text (output ++ concatAll (ds.map t)) := by
  induction ds with
  | nil => intro output; simp [concatAll, String.append_empty]
  | cons d ds ih =>
    intro output
    simp only [List.foldl_cons, appendTree, h d (List.mem_cons_self _ _), List.map_cons,
      concatAll]
    rw [ih (fun d' hd' => h d' (List.mem_cons_of_mem _ hd')), String.append_assoc]

theorem resolved_of_dep (w : World) (self d : Nat) (hd : d ∈ w.deps self)
    (h : Resolved w self) : Resolved w d :=
  fun i hi => h i (Relation.ReflTransGen.head hd hi)

/-- A rendering within the depth bound of a resolved graph is the text of its
lines. -/
theorem genTree_lines (w : World) (rank : Nat → Nat) (hr : Ranked w rank) :
    ∀ fuel self indentLevel, rank self < fuel → Resolved w self →
      genTree w fuel self indentLevel =
        .text (renderLines w (treeLines w fuel self indentLevel)) := by
  intro fuel
  induction fuel with
  | zero => intro self _ h; omega
  | succ fuel ih =>
    intro self indentLevel h hres
    obtain ⟨ds, hds⟩ := hres self Relation.ReflTransGen.refl
    have hdeps : w.deps self = ds := by simp [World.deps, hds]
    have hsub : ∀ d ∈ ds, genTree w fuel d (indentLevel + 1) =
        .text (renderLines w (treeLines w fuel d (indentLevel + 1))) := by
      intro d hd
      exact ih d (indentLevel + 1) (by have := hr self d (hdeps ▸ hd); omega)
        (resolved_of_dep w self d (hdeps ▸ hd) hres)
    simp only [genTree, hds, treeLines, hdeps]
    rw [foldl_appendTree _ (fun d => renderLines w (treeLines w fuel d (indentLevel + 1))) ds hsub]
    simp only [renderLines, List.map_cons, concatAll, List.map_flatMap, concatAll_flatMap,
      lineText]

/-- The lines of a rendering do not depend on the depth bound once it
exceeds the rank of the task. -/
theorem treeLines_stable (w : World) (rank : Nat → Nat) (hr : Ranked w rank) :
    ∀ fuel fuel' self indentLevel, rank self < fuel → rank self < fuel' →
      treeLines w fuel self indentLevel = treeLines w fuel' self indentLevel := by
  intro fuel
  induction fuel with
  | zero => intro _ self _ h; omega
  | succ fuel ih =>
    intro fuel' self indentLevel h h'
    obtain ⟨k, hk⟩ : ∃ k, fuel' = k + 1 := ⟨fuel' - 1, by omega⟩
    subst hk
    simp only [treeLines]
    congr 1
    apply List.flatMap_congr
    intro d hd
    have := hr self d hd
    exact ih k d (indentLevel + 1) (by omega) (by omega)

theorem pathCount_stable (w : World) (rank : Nat → Nat) (hr : Ranked w rank) (target : Nat) :
    ∀ fuel fuel' self, rank self < fuel → rank self < fuel' →
      pathCount w target fuel self = pathCount w target fuel' self := by
  intro fuel
  induction fuel with
  | zero => intro _ self h; omega
  | succ fuel ih =>
    intro fuel' self h h'
    obtain ⟨k, hk⟩ : ∃ k, fuel' = k + 1 := ⟨fuel' - 1, by omega⟩
    subst hk
    simp only [pathCount]
    congr 2
    apply List.map_congr_left
    intro d hd
    have := hr self d hd
    exact ih k d (by omega) (by omega)

theorem count_treeLines (w : World) (target : Nat) :
    ∀ fuel self indentLevel,
      (treeLines w fuel self indentLevel).countP (fun line => line.2 = target) =
        pathCount w target fuel self := by
  intro fuel
  induction fuel with
  | zero => intro self indentLevel; rfl
  | succ fuel ih =>
    intro self indentLevel
    simp only [treeLines, pathCount, List.countP_cons, List.countP_flatMap, Function.comp_def, ih]
    by_cases h : self = target <;> simp [h, Nat.add_comm]

/-- The rendering reads the dependency lists, not the lists of children. -/
theorem genTree_children (w : World) (children : Nat → List Nat) :
    ∀ fuel self indentLevel,
      genTree { w with children := children } fuel self indentLevel =
        genTree w fuel self indentLevel := by
  intro fuel
  induction fuel with
  | zero => intro _ _; rfl
  | succ fuel ih =>
    intro self indentLevel
    have hsub : (fun d => genTree { w with children := children } fuel d (indentLevel + 1)) =
        fun d => genTree w fuel d (indentLevel + 1) := funext fun d => ih d (indentLevel + 1)
    simp only [genTree, hsub]
    rfl

/-- C13.  In an acyclic resolved graph, for every indent level:
`makeIndent` is the marker "#" repeated; `genTree(indentLevel)` returns the
indent, the full name of the task and a newline, followed by the texts of
`genTree(indentLevel + 1)` of the dependencies in list order; the text is one
line for each entry of the line list, which has as many lines for a task as
there are dependency paths from the root to it (nothing is deduplicated);
neither depends on the depth bound once it exceeds the rank of the root; and
the lists of children play no part. -/
theorem genTree_renders_paths (w : World) (rank : Nat → Nat) (fuel root indentLevel : Nat)
    (hacyclic : Ranked w rank) (hresolved : Resolved w root) (hfuel : rank root < fuel) :
    makeIndent indentLevel = String.mk (List.replicate indentLevel '#') ∧
    (∃ subs : List String,
      List.Forall₂ (fun depTask sub => genTree w fuel depTask (indentLevel + 1) = .text sub)
        (w.deps root) subs ∧
      genTree w fuel root indentLevel =
        .text (makeIndent indentLevel ++ w.fullName root ++ "\n" ++ concatAll subs)) ∧
    genTree w fuel root indentLevel =
      .text (renderLines w (treeLines w fuel root indentLevel)) ∧
    (∀ target, (treeLines w fuel root indentLevel).countP (fun line => line.2 = target) =
      pathCount w target fuel root) ∧
    (∀ fuel', rank root < fuel' →
      genTree w fuel' root indentLevel = genTree w fuel root indentLevel ∧
      ∀ target, pathCount w target fuel' root = pathCount w target fuel root) ∧
    (∀ children : Nat → List Nat,
      genTree { w with children := children } fuel root indentLevel =
        genTree w fuel root indentLevel) := by
  have hlines := genTree_lines w rank hacyclic
  refine ⟨makeIndent_eq indentLevel, ?_, hlines fuel root indentLevel hfuel hresolved,
    fun target => count_treeLines w target fuel root indentLevel, ?_,
    fun children => genTree_children w children fuel root indentLevel⟩
  · refine ⟨(w.deps root).map fun d => renderLines w (treeLines w fuel d (indentLevel + 1)),
      ?_, ?_⟩
    · rw [List.forall₂_map_right_iff, List.forall₂_same]
      intro d hd
      exact hlines fuel d (indentLevel + 1) (by have := hacyclic root d hd; omega)
        (resolved_of_dep w root d hd hresolved)
    · obtain ⟨k, hk⟩ : ∃ k, fuel = k + 1 := ⟨fuel - 1, by omega⟩
      rw [hlines fuel root indentLevel hfuel hresolved]
      subst hk
      have hroot : treeLines w (k + 1) root indentLevel =
          (indentLevel, root) ::
            (w.deps root).flatMap fun d => treeLines w k d (indentLevel + 1) := rfl
      have hsame : ∀ d ∈ w.deps root,
          renderLines w (treeLines w k d (indentLevel + 1)) =
            renderLines w (treeLines w (k + 1) d (indentLevel + 1)) := by
        intro d hd
        have := hacyclic root d hd
        rw [treeLines_stable w rank hacyclic k (k + 1) d (indentLevel + 1) (by omega) (by omega)]
      rw [hroot, ← List.map_congr_left hsame]
      simp only [renderLines, List.map_cons, concatAll, List.map_flatMap, concatAll_flatMap,
        lineText]
  · intro fuel' hfuel'
    refine ⟨?_, fun target => pathCount_stable w rank hacyclic target fuel' fuel root hfuel' hfuel⟩
    rw [hlines fuel' root indentLevel hfuel' hresolved, hlines fuel root indentLevel hfuel hresolved,
      treeLines_stable w rank hacyclic fuel' fuel root indentLevel hfuel' hfuel]

theorem resolved_of_listing (w : World) (fuel root : Nat) (L : List Nat)
    (hL : postOrder w fuel root = some L)
    (h : ∀ i ∈ L, (w.dependencies i).isSome = true) : Resolved w root := by
  intro i hi
  exact Option.isSome_iff_exists.1 (h i ((mem_postOrder w fuel root L hL i).2 hi))

/-- C13, witness: the diamond; its shared task A is rendered twice. -/
theorem genTree_renders_paths_witness :
    Ranked diamond id ∧ Resolved diamond 3 ∧
    genTree diamond 4 3 0 = .text "D\n#B\n##A\n#C\n##A\n" ∧
    (treeLines diamond 4 3 0).countP (fun line => line.2 = 0) = 2 ∧
    pathCount diamond 0 4 3 = 2 := by
  have hres : Resolved diamond 3 :=
    resolved_of_listing diamond 4 3 [0, 1, 0, 2, 3] rfl (by decide)
  have h := genTree_renders_paths diamond id 4 3 0 (diamondWith_ranked _ _) hres (by decide)
  exact ⟨diamondWith_ranked _ _, hres, by decide, by rw [h.2.2.2.1 0]; decide, by decide⟩

/-! ## C14: the full name -/

theorem intercalate_go_append (sep x : String) (l : List String) :
    ∀ acc : String,
      String.intercalate.go acc sep (l ++ [x]) = String.intercalate.go acc sep l ++ sep ++ x := by
  induction l with
  | nil => intro acc; rfl
  | cons a l ih => intro acc; exact ih (acc ++ sep ++ a)

theorem intercalate_append_singleton (sep x : String) (l : List String) (h : l ≠ []) :
    sep.intercalate (l ++ [x]) = sep.intercalate l ++ sep ++ x := by
  cases l with
  | nil => exact absurd rfl h
  | cons a l => exact intercalate_go_append sep x l a

theorem names_ne_nil (t : Task) : t.names ≠ [] := by
  cases t <;> simp [Task.names]

theorem fullName_eq_intercalate (t : Task) : t.fullName = "/".intercalate t.names := by
  induction t with
  | root f m => rfl
  | child p f m ih =>
    rw [Task.names, intercalate_append_singleton _ _ _ (names_ne_nil p), ← ih]
    rfl

theorem stripExt_js (s : String) : stripExt (s ++ ".js") = s := by
  have hd : (s ++ ".js").data = s.data ++ ['.', 'j', 's'] := by
    rw [String.data_append]
  have hsuf : ['.', 'j', 's'].isSuffixOf (s ++ ".js").data = true := by
    rw [List.isSuffixOf_iff_suffix, hd]
    exact List.suffix_append _ _
  simp only [stripExt, hsuf, if_true]
  apply String.ext
  simp [hd]

theorem stripExt_other (f : String) (h : ¬ ['.', 'j', 's'] <:+ f.data) : stripExt f = f := by
  have hsuf : ['.', 'j', 's'].isSuffixOf f.data = false := by
    rw [← Bool.not_eq_true, List.isSuffixOf_iff_suffix]
    exact h
  simp [stripExt, hsuf]

/-- C14.  `fullName()` is `name()` for a task without a parent and the
`fullName()` of the parent, "/" and `name()` otherwise: the names on the way
from the root to the task joined by "/".  `name()` is the file name, without
its ending ".js" when it has one.  The task "b" under "a" reports "a/b" and
the root "a" reports "a". -/
theorem fullName_composition :
    (∀ f m, (Task.root f m).fullName = (Task.root f m).name) ∧
    (∀ p f m, (Task.child p f m).fullName = p.fullName ++ "/" ++ (Task.child p f m).name) ∧
    (∀ t : Task, t.fullName = "/".intercalate t.names) ∧
    (∀ t : Task, t.name = stripExt t.fileName) ∧
    (∀ s : String, stripExt (s ++ ".js") = s) ∧
    (∀ f : String, ¬ ['.', 'j', 's'] <:+ f.data → stripExt f = f) ∧
    (Task.child (.root "a" none) "b" none).fullName = "a/b" ∧
    (Task.child (.root "a.js" none) "b.js" none).fullName = "a/b" ∧
    (Task.root "a" none).fullName = "a" :=
  ⟨fun _ _ => rfl, fun _ _ _ => rfl, fullName_eq_intercalate, fun _ => rfl, stripExt_js,
    stripExt_other, by decide, by decide, by decide⟩

/-- C14, witness: a file name that does not end in ".js" is the name. -/
theorem fullName_composition_witness : stripExt "build.json" = "build.json" :=
  fullName_composition.2.2.2.2.2.1 "build.json" (by decide)

/-! ## C15: full names in a hierarchy -/

theorem list_intercalate_snoc (sep x : List Char) :
    ∀ l : List (List Char), l ≠ [] →
      List.intercalate sep (l ++ [x]) = List.intercalate sep l ++ sep ++ x := by
  intro l
  induction l with
  | nil => intro h; exact absurd rfl h
  | cons a l ih =>
    intro _
    cases l with
    | nil => simp [List.intercalate, List.intersperse]
    | cons b l =>
      have := ih (by simp)
      simp only [List.intercalate, List.cons_append, List.intersperse, List.flatten_cons,
        List.append_assoc] at this ⊢
      exact congrArg (fun t => a ++ (sep ++ t)) this

theorem fullName_data (t : Task) :
    t.fullName.data = List.intercalate ['/'] (t.names.map String.data) := by
  induction t with
  | root f m => simp [Task.fullName, Task.names, List.intercalate, List.intersperse]
  | child p f m ih =>
    have hne : p.names.map String.data ≠ [] := by
      simpa using names_ne_nil p
    rw [Task.names, List.map_append, List.map_singleton, list_intercalate_snoc _ _ _ hne, ← ih]
    simp [Task.fullName, String.data_append]

/-- Tasks whose names hold no "/" and whose full names are equal have the
same chain of names. -/
theorem names_of_fullName (t u : Task) (ht : ∀ n ∈ t.names, '/' ∉ n.data)
    (hu : ∀ n ∈ u.names, '/' ∉ n.data) (h : t.fullName = u.fullName) : t.names = u.names := by
  have hd : List.intercalate ['/'] (t.names.map String.data) =
      List.intercalate ['/'] (u.names.map String.data) := by
    rw [← fullName_data, ← fullName_data, h]
  have h1 := List.splitOn_intercalate (t.names.map String.data) '/'
    (by
      intro l hl
      obtain ⟨n, hn, rfl⟩ := List.mem_map.1 hl
      exact ht n hn)
    (by simpa using names_ne_nil t)
  have h2 := List.splitOn_intercalate (u.names.map String.data) '/'
    (by
      intro l hl
      obtain ⟨n, hn, rfl⟩ := List.mem_map.1 hl
      exact hu n hn)
    (by simpa using names_ne_nil u)
  rw [hd, h2] at h1
  exact (List.map_injective_iff.2 (fun a b hab => String.ext hab) h1).symm

theorem member_names (w : World) (root : Nat) (hc : Coherent w root) (hn : NoSlash w root)
    (i : Nat) (hi : Member w root i) : ∀ n ∈ (w.task i).names, '/' ∉ n.data := by
  induction hi with
  | root =>
    intro n hmem
    rw [hc.1, List.mem_singleton] at hmem
    rw [hmem]
    exact hn root Member.root
  | child p c hp hcp ih =>
    intro n hmem
    rw [hc.2 p c hp hcp, List.mem_append, List.mem_singleton] at hmem
    rcases hmem with hmem | hmem
    · exact ih n hmem
    · rw [hmem]
      exact hn c (Member.child p c hp hcp)

theorem member_of_names (w : World) (root : Nat) (hc : Coherent w root)
    (hs : SiblingNames w root) (i : Nat) (hi : Member w root i) :
    ∀ j, Member w root j → (w.task i).names = (w.task j).names → i = j := by
  induction hi with
  | root =>
    intro j hj h
    cases hj with
    | root => rfl
    | child q _ hq hcq =>
      rw [hc.1, hc.2 q j hq hcq] at h
      have hlen := congrArg List.length h
      have hq' := List.length_pos.2 (names_ne_nil (w.task q))
      rw [List.length_append] at hlen
      simp only [List.length_singleton] at hlen
      omega
  | child p c hp hcp ih =>
    intro j hj h
    cases hj with
    | root =>
      rw [hc.1, hc.2 p c hp hcp] at h
      have hlen := congrArg List.length h
      have hp' := List.length_pos.2 (names_ne_nil (w.task p))
      rw [List.length_append] at hlen
      simp only [List.length_singleton] at hlen
      omega
    | child q _ hq hcq =>
      rw [hc.2 p c hp hcp, hc.2 q j hq hcq] at h
      obtain ⟨h1, h2⟩ := List.append_inj' h rfl
      have hpq : p = q := ih q hq h1
      subst hpq
      exact hs p c j hp hcp hcq (by simpa using h2)

/-- C15, as amended.  In a hierarchy built with the constructor and
`addChild` whose sibling tasks have distinct task names (file names without
".js") and whose names hold no "/", two distinct tasks have different full
names; and the full name of a task is the same after `resolveDependencies`
and after `addChild` (`validate` and `invoke` leave the heap as it is). -/
theorem fullName_unique (w : World) (root : Nat) (hcoherent : Coherent w root)
    (hsiblings : SiblingNames w root) (hslash : NoSlash w root) :
    (∀ i j, Member w root i → Member w root j → i ≠ j → w.fullName i ≠ w.fullName j) ∧
    (∀ (getTask : String → Except Err Nat) (config : Config) (self : Nat) (log : List LogMsg)
      (i : Nat), (resolveDependencies w getTask config self log).2.1.fullName i = w.fullName i) ∧
    (∀ self childTask i, (w.addChild self childTask).fullName i = w.fullName i) := by
  refine ⟨?_, ?_, fun _ _ _ => rfl⟩
  · intro i j hi hj hij h
    exact hij (member_of_names w root hcoherent hsiblings i hi j hj
      (names_of_fullName _ _ (member_names w root hcoherent hslash i hi)
        (member_names w root hcoherent hslash j hj) h))
  · intro getTask config self log i
    simp only [World.fullName, resolveDependencies_task]

theorem member_in (w : World) (root : Nat) (N : List Nat) (hroot : root ∈ N)
    (hclosed : ∀ p ∈ N, ∀ c ∈ w.children p, c ∈ N) (i : Nat) (hi : Member w root i) : i ∈ N := by
  induction hi with
  | root => exact hroot
  | child p c _ hcp ih => exact hclosed p ih c hcp

theorem coherent_of_list (w : World) (root : Nat) (N : List Nat) (hroot : root ∈ N)
    (hclosed : ∀ p ∈ N, ∀ c ∈ w.children p, c ∈ N)
    (h0 : (w.task root).names = [(w.task root).name])
    (h : ∀ p ∈ N, ∀ c ∈ w.children p, (w.task c).names = (w.task p).names ++ [(w.task c).name]) :
    Coherent w root :=
  ⟨h0, fun p c hp hc => h p (member_in w root N hroot hclosed p hp) c hc⟩

/-- C15, witness: p with the children a.js and b. -/
theorem fullName_unique_witness :
    Coherent family 0 ∧ SiblingNames family 0 ∧ NoSlash family 0 ∧
      family.fullName 1 ≠ family.fullName 2 := by
  have hclosed : ∀ p ∈ [0, 1, 2], ∀ c ∈ family.children p, c ∈ [0, 1, 2] := by decide
  have hin := member_in family 0 [0, 1, 2] (by decide) hclosed
  have hc : Coherent family 0 :=
    coherent_of_list family 0 [0, 1, 2] (by decide) hclosed (by decide) (by decide)
  have hs : SiblingNames family 0 := by
    intro p c c' hp hcp hcp'
    have key : ∀ p ∈ [0, 1, 2], ∀ c ∈ family.children p, ∀ c' ∈ family.children p,
        (family.task c).name = (family.task c').name → c = c' := by decide
    exact key p (hin p hp) c hcp c' hcp'
  have hn : NoSlash family 0 := by
    intro i hi
    have key : ∀ i ∈ [0, 1, 2], '/' ∉ (family.task i).name.data := by decide
    exact key i (hin i hi)
  exact ⟨hc, hs, hn,
    (fullName_unique family 0 hc hs hn).1 1 2 (Member.child 0 1 Member.root (by decide))
      (Member.child 0 2 Member.root (by decide)) (by decide)⟩

/-- C15, counterexample: under p the directory "a" and the file "a.js" are
siblings with distinct file names, and both have the full name "p/a".  (And
with the file name "b/c" under a, that task and the task c under a/b both have
the full name "a/b/c".) -/
theorem fullName_unique_counterexample :
    Coherent clash 0 ∧ SiblingFiles clash 0 ∧ Member clash 0 1 ∧ Member clash 0 2 ∧
    clash.fullName 1 = "p/a" ∧ clash.fullName 2 = "p/a" ∧
    Coherent clashSlash 0 ∧ SiblingFiles clashSlash 0 ∧ Member clashSlash 0 1 ∧
    Member clashSlash 0 3 ∧ clashSlash.fullName 1 = "a/b/c" ∧
    clashSlash.fullName 3 = "a/b/c" := by
  have hclosed : ∀ p ∈ [0, 1, 2], ∀ c ∈ clash.children p, c ∈ [0, 1, 2] := by decide
  have hin := member_in clash 0 [0, 1, 2] (by decide) hclosed
  have hclosed' : ∀ p ∈ [0, 1, 2, 3], ∀ c ∈ clashSlash.children p, c ∈ [0, 1, 2, 3] := by
    decide
  have hin' := member_in clashSlash 0 [0, 1, 2, 3] (by decide) hclosed'
  refine ⟨coherent_of_list clash 0 [0, 1, 2] (by decide) hclosed (by decide) (by decide), ?_,
    Member.child 0 1 Member.root (by decide), Member.child 0 2 Member.root (by decide),
    by decide, by decide,
    coherent_of_list clashSlash 0 [0, 1, 2, 3] (by decide) hclosed' (by decide) (by decide), ?_,
    Member.child 0 1 Member.root (by decide),
    Member.child 2 3 (Member.child 0 2 Member.root (by decide)) (by decide),
    by decide, by decide⟩
  · intro p c c' hp hcp hcp'
    have key : ∀ p ∈ [0, 1, 2], ∀ c ∈ clash.children p, ∀ c' ∈ clash.children p,
        (clash.task c).fileName = (clash.task c').fileName → c = c' := by decide
    exact key p (hin p hp) c hcp c' hcp'
  · intro p c c' hp hcp hcp'
    have key : ∀ p ∈ [0, 1, 2, 3], ∀ c ∈ clashSlash.children p, ∀ c' ∈ clashSlash.children p,
        (clashSlash.task c).fileName = (clashSlash.task c').fileName → c = c' := by decide
    exact key p (hin' p hp) c hcp c' hcp'

/-! ## C16: the completion message of `invoke` -/

theorem marked_refl (w : World) (p : Phase) (r : Run) (s : Status)
    (hs : s = .ok ∨ s = .outOfFuel) : Marked w p r (s, r) :=
  ⟨[], by simp [marks], Or.inr ⟨hs, by simp [pairs]⟩⟩

theorem marked_trans (w : World) (p : Phase) (r r₁ : Run) (res : Status × Run)
    (h₁ : Marked w p r (.ok, r₁)) (h₂ : Marked w p r₁ res) : Marked w p r res := by
  obtain ⟨P₁, m₁, t₁⟩ := h₁
  obtain ⟨P₂, m₂, t₂⟩ := h₂
  have t₁' : r₁.trace = r.trace ++ pairs p P₁ := by
    rcases t₁ with ⟨e, P', x, h, _⟩ | ⟨_, h⟩
    · simp at h
    · exact h
  simp only at m₁
  refine ⟨P₁ ++ P₂, by rw [m₂, m₁, marks_append, List.append_assoc], ?_⟩
  rcases t₂ with ⟨e, P', x, a, b, c⟩ | ⟨a, c⟩
  · refine Or.inl ⟨e, P₁ ++ P', x, a, by rw [b, List.append_assoc], ?_⟩
    rw [c, t₁', pairs_append]
    simp only [List.append_assoc]
  · refine Or.inr ⟨a, ?_⟩
    rw [c, t₁', pairs_append, List.append_assoc]

theorem marked_step (w : World) (p : Phase) (step : Nat → Run → Status × Run)
    (hs : StepSpec w p step) (i : Nat) (r : Run) : Marked w p r (step i r) := by
  by_cases hi : w.fullName i ∈ r.memo
  · rw [hs.skip i r hi]
    exact marked_refl w p r .ok (Or.inl rfl)
  · obtain ⟨hm, ht, _⟩ := hs.run i r hi
    refine ⟨[i], by rw [hm]; simp [marks], ?_⟩
    rcases ht with ⟨a, b⟩ | ⟨⟨e, a⟩, b⟩
    · exact Or.inr ⟨Or.inl a, by rw [b, pairs_singleton]⟩
    · exact Or.inl ⟨e, [], i, a, rfl, by rw [b]; simp [pairs]⟩

/-- Every run, in any graph and under any depth bound, leaves its marks and
events coupled. -/
theorem traverse_marked (w : World) (p : Phase) (step : Nat → Run → Status × Run)
    (hs : StepSpec w p step) (fuel i : Nat) (r : Run) :
    Marked w p r (traverse w step fuel i r) := by
  have key := (traverse_induction w step
    (fun _ _ r res => Marked w p r res) (fun _ _ r res => Marked w p r res)
    (fun i r => marked_refl w p r .outOfFuel (Or.inr rfl))
    (fun fuel r => marked_refl w p r .ok (Or.inl rfl))
    (fun fuel d ds r r₁ res hT hA => marked_trans w p r r₁ res hT hA)
    (fun fuel d ds r res _ hT => hT)
    (fun fuel i r r₁ hA => marked_trans w p r r₁ _ hA (marked_step w p step hs i r₁))
    (fun fuel i r res _ hA => hA)).1
  exact key fuel i r

theorem marked_failed (w : World) (p : Phase) (r : Run) (res : Status × Run) (e : Err)
    (h : Marked w p r res) (he : res.1 = .failed e) :
    ∃ P x, res.2.memo = marks w (P ++ [x]) ++ r.memo ∧
      res.2.trace = r.trace ++ pairs p P ++ [.began p x] ∧
      (∀ k ∈ r.memo, k ∈ res.2.memo) ∧
      (∀ j ∈ P, w.fullName j ∈ res.2.memo) ∧
      w.fullName x ∈ res.2.memo ∧
      (∀ k ∈ res.2.memo, k ∈ r.memo ∨ ∃ j ∈ P ++ [x], w.fullName j = k) := by
  obtain ⟨Q, hm, ht⟩ := h
  rcases ht with ⟨e', P, x, _, b, c⟩ | ⟨a, _⟩
  · subst b
    refine ⟨P, x, hm, c, ?_, ?_, ?_, ?_⟩
    · intro k hk; rw [hm]; exact List.mem_append_right _ hk
    · intro j hj
      rw [hm]
      exact List.mem_append_left _ ((mem_marks w _ _).2 ⟨j, by simp [hj], rfl⟩)
    · rw [hm]
      exact List.mem_append_left _ ((mem_marks w _ _).2 ⟨x, by simp, rfl⟩)
    · intro k hk
      rw [hm] at hk
      rcases List.mem_append.1 hk with hk | hk
      · exact Or.inr ((mem_marks w _ _).1 hk)
      · exact Or.inl hk
  · rw [he] at a
    rcases a with a | a <;> simp at a

/-- C17, as amended.  When `validate` or `invoke` on a root fails, in any
graph and from any initial state, there are the tasks `P` whose own step had
completed and the task `x` whose own step failed, such that the events of the
run are the completed own steps of `P` followed by the begin of the own step
of `x`, and the memo afterwards is the initial memo with the full names of `P`
and of `x` added: it keeps every initial entry, holds the full name of every
task of `P` and that of `x`, and every entry of it is an initial entry or the
full name of a task whose own step began. -/
theorem memo_after_failure (w : World) (config : Config) (fuel root : Nat) (r : Run) (e : Err) :
    ((validate w config fuel root r).1 = .failed e →
      ∃ P x, (validate w config fuel root r).2.memo = marks w (P ++ [x]) ++ r.memo ∧
        (validate w config fuel root r).2.trace =
          r.trace ++ pairs .validate P ++ [.began .validate x] ∧
        (∀ k ∈ r.memo, k ∈ (validate w config fuel root r).2.memo) ∧
        (∀ j ∈ P, w.fullName j ∈ (validate w config fuel root r).2.memo) ∧
        w.fullName x ∈ (validate w config fuel root r).2.memo ∧
        (∀ k ∈ (validate w config fuel root r).2.memo,
          k ∈ r.memo ∨ ∃ j ∈ P ++ [x], w.fullName j = k)) ∧
    ((invoke w config fuel root r).1 = .failed e →
      ∃ P x, (invoke w config fuel root r).2.memo = marks w (P ++ [x]) ++ r.memo ∧
        (invoke w config fuel root r).2.trace =
          r.trace ++ pairs .invoke P ++ [.began .invoke x] ∧
        (∀ k ∈ r.memo, k ∈ (invoke w config fuel root r).2.memo) ∧
        (∀ j ∈ P, w.fullName j ∈ (invoke w config fuel root r).2.memo) ∧
        w.fullName x ∈ (invoke w config fuel root r).2.memo ∧
        (∀ k ∈ (invoke w config fuel root r).2.memo,
          k ∈ r.memo ∨ ∃ j ∈ P ++ [x], w.fullName j = k)) :=
  ⟨fun h => marked_failed w .validate r _ e
      (traverse_marked w .validate _ (validateStep_spec w config) fuel root r) h,
    fun h => marked_failed w .invoke r _ e
      (traverse_marked w .invoke _ (invokeStep_spec w config) fuel root r) h⟩

/-- C17, witness: the diamond whose task B throws in `validate`, from the
empty memo: A completed, B failed, and the memo holds "A" and "B" only. -/
theorem memo_after_failure_witness :
    (validate (diamondWith (some okModule) (some (badValidate "invalid"))) cfg0 4 3 {}).1 =
      .failed "invalid" ∧
    (validate (diamondWith (some okModule) (some (badValidate "invalid"))) cfg0 4 3 {}).2.memo =
      ["B", "A"] ∧
    ∃ P x,
      (validate (diamondWith (some okModule) (some (badValidate "invalid"))) cfg0 4 3 {}).2.trace =
        ([] : List Event) ++ pairs .validate P ++ [.began .validate x] :=
  have h := (memo_after_failure (diamondWith (some okModule) (some (badValidate "invalid")))
    cfg0 4 3 {} "invalid").1 (by decide)
  ⟨by decide, by decide, h.elim fun P hP => hP.elim fun x hx => ⟨P, x, hx.2.1⟩⟩

/-- C17, counterexample: the diamond whose task A throws in `invoke`, run from
a memo that marks "C".  The own step of C never begins, and the memo afterwards
holds "C", the full name of C. -/
theorem memo_after_failure_counterexample :
    invoke (diamondWith (some (throwModule "boom")) (some okModule)) cfg0 4 3
        { memo := ["C"] } =
      (.failed "boom",
        { memo := ["A", "C"], log := [⟨.error, "Exception while invoking task: A"⟩],
          trace := [.began .invoke 0] }) ∧
    (diamondWith (some (throwModule "boom")) (some okModule)).fullName 2 = "C" ∧
    Event.began .invoke 2 ∉
      (invoke (diamondWith (some (throwModule "boom")) (some okModule)) cfg0 4 3
        { memo := ["C"] }).2.trace ∧
    (diamondWith (some (throwModule "boom")) (some okModule)).fullName 2 ∈
      (invoke (diamondWith (some (throwModule "boom")) (some okModule)) cfg0 4 3
        { memo := ["C"] }).2.memo :=
  ⟨by decide, by decide, by decide, by decide⟩

/-! ## C18: a cycle -/

theorem cycle_descends (w : World) (step : Nat → Run → Status × Run) (a b : Nat)
    (ha : w.deps a = [b]) (hb : w.deps b = [a]) :
    ∀ fuel r, traverse w step fuel a r = (.outOfFuel, r) ∧
      traverse w step fuel b r = (.outOfFuel, r) := by
  intro fuel
  induction fuel with
  | zero => intro r; exact ⟨rfl, rfl⟩
  | succ fuel ih =>
    intro r
    have hstop : ∀ x, traverse w step fuel x r = (.outOfFuel, r) →
        andThen (aggregate (traverse w step fuel) [x] r) (step a) = (.outOfFuel, r) ∧
        andThen (aggregate (traverse w step fuel) [x] r) (step b) = (.outOfFuel, r) := by
      intro x hx
      have hagg : aggregate (traverse w step fuel) [x] r = (.outOfFuel, r) := by
        rw [aggregate_cons_stop _ _ _ _ (by rw [hx]; simp), hx]
      rw [hagg]
      exact ⟨rfl, rfl⟩
    constructor
    · show andThen (aggregate (traverse w step fuel) (w.deps a) r) (step a) = _
      rw [ha]
      exact (hstop b (ih r).2).1
    · show andThen (aggregate (traverse w step fuel) (w.deps b) r) (step b) = _
      rw [hb]
      exact (hstop a (ih r).1).2

/-- C18.  When A depends on `[B]` and B on `[A]`, for every config, every
initial state (whatever its memo marks) and every depth bound, `validate` and
`invoke` on A end at the bound, still descending, with the state they started
from: no own step has run, nothing is marked and nothing is logged.  So they
settle under no bound. -/
theorem cycle_never_completes (w : World) (a b : Nat) (config : Config) (fuel : Nat) (r : Run)
    (ha : w.dependencies a = some [b]) (hb : w.dependencies b = some [a]) :
    validate w config fuel a r = (.outOfFuel, r) ∧ invoke w config fuel a r = (.outOfFuel, r) :=
  ⟨(cycle_descends w _ a b (deps_of_dependencies w a _ ha) (deps_of_dependencies w b _ hb)
      fuel r).1,
    (cycle_descends w _ a b (deps_of_dependencies w a _ ha) (deps_of_dependencies w b _ hb)
      fuel r).1⟩

/-- C18, witness: the cycle of A and B, from a memo that marks both. -/
theorem cycle_never_completes_witness :
    validate cycle cfg0 1000 0 { memo := ["A", "B"] } = (.outOfFuel, { memo := ["A", "B"] }) ∧
    invoke cycle cfg0 1000 0 { memo := ["A", "B"] } = (.outOfFuel, { memo := ["A", "B"] }) :=
  cycle_never_completes cycle 0 1 cfg0 1000 { memo := ["A", "B"] } rfl rfl

/-! ## C19: a task that was just constructed -/

/-- C19, as amended.  A task that was just constructed has no dependency
list: the field is undefined.  `validate` and `invoke` take it for empty and
run the own step of the task only; `genTree` throws, at every indent level. -/
theorem constructed_task (w : World) (self : Nat) (t : Task) (config : Config)
    (fuel indentLevel : Nat) (r : Run) :
    (w.construct self t).dependencies self = none ∧
    (w.construct self t).deps self = [] ∧
    (w.construct self t).task self = t ∧
    validate (w.construct self t) config (fuel + 1) self r =
      validateStep (w.construct self t) config self r ∧
    invoke (w.construct self t) config (fuel + 1) self r =
      invokeStep (w.construct self t) config self r ∧
    genTree (w.construct self t) (fuel + 1) self indentLevel = .threw forEachTypeError := by
  have hd : (w.construct self t).dependencies self = none := by
    simp [World.construct]
  have hdeps : (w.construct self t).deps self = [] := by
    simp [World.deps, hd]
  refine ⟨hd, hdeps, by simp [World.construct], ?_, ?_, ?_⟩
  · show andThen (aggregate _ ((w.construct self t).deps self) r) _ = _
    rw [hdeps]; rfl
  · show andThen (aggregate _ ((w.construct self t).deps self) r) _ = _
    rw [hdeps]; rfl
  · simp only [genTree, hd]

/-- C19, counterexample: the task new.js, just constructed: its dependency
list is undefined, not empty, and `genTree(0)` throws where the full name and
a newline are expected. -/
theorem constructed_task_counterexample :
    (diamond.construct 7 (.root "new.js" (some okModule))).dependencies 7 ≠ some [] ∧
    genTree (diamond.construct 7 (.root "new.js" (some okModule))) 1 7 0 =
      .threw forEachTypeError ∧
    genTree (diamond.construct 7 (.root "new.js" (some okModule))) 1 7 0 ≠ .text "new\n" ∧
    (diamond.construct 7 (.root "new.js" (some okModule))).fullName 7 = "new" :=
  ⟨by decide, by decide, by decide, by decide⟩

/-! ## C20: memo growth and running again -/

end TaskMule
